import Mathlib

/-
Verification of the configuration and dynamic-command pipeline of the
becmd command line client.

The development shallowly embeds the Python sources of the repository:

* `becmd/utils.py`  — `mapping_expand`, `mapping_update`;
* `becmd/schema.py` — the validation schemas and `validate`;
* `becmd/api.py`    — the `Endpoint` URL generator and the dynamic
  argument-parser generators `argparser_from_actions` and
  `argparser_from_interface`;
* `becmd/__main__.py` — `parse_args`.

Python dictionaries are embedded as association lists of string keys in
insertion order (assignment to an existing key keeps its position, a new
key is appended at the end), matching the ordered semantics of `dict`.
JSON-style values are embedded by the inductive type `JValue`.  Code
paths on which the Python program would raise a `TypeError` or
`AttributeError` (for example, descending into a value that is not a
dictionary) are embedded as `Option`/`Except` failures.
-/

set_option autoImplicit false

namespace Becmd

/-- JSON-like values handled by the program: the embedding of the Python
values stored in configuration dictionaries and API responses.  Numbers
are embedded as rationals (`15.0` and friends are exactly
representable). -/
inductive JValue where
  | null
  | bool (b : Bool)
  | str  (s : String)
  | num  (q : Rat)
  | arr  (xs : List JValue)
  | obj  (kvs : List (String × JValue))
  deriving Repr

/-- A shorthand for the embedding of a Python dictionary. -/
abbrev JDict := List (String × JValue)

/-- Is this value a mapping?  Embeds the `isinstance(v, Mapping)` test. -/
def JValue.isObj : JValue → Bool
  | JValue.obj _ => true
  | _ => false

/-- Python truthiness of an embedded value: `None`, `False`, `""`, `0`,
empty lists and empty dictionaries are falsy, everything else is truthy. -/
def JValue.truthy : JValue → Bool
  | JValue.null => false
  | JValue.bool b => b
  | JValue.str s => s ≠ ""
  | JValue.num q => q ≠ 0
  | JValue.arr xs => !xs.isEmpty
  | JValue.obj kvs => !kvs.isEmpty

/-- `d.get(k)` on a Python dictionary: the value bound to key `k`, if any. -/
def lookupKey {α : Type} : List (String × α) → String → Option α
  | [], _ => none
  | (k, v) :: rest, k0 => if k = k0 then some v else lookupKey rest k0

/-- `d[k] = v` on a Python dictionary: an existing key keeps its position
and gets the new value, a new key is appended at the end. -/
def setKey {α : Type} : List (String × α) → String → α → List (String × α)
  | [], k0, v0 => [(k0, v0)]
  | (k, v) :: rest, k0, v0 =>
    if k = k0 then (k, v0) :: rest else (k, v) :: setKey rest k0 v0

/-- The keys of an embedded dictionary, in order. -/
def keysOf {α : Type} (m : List (String × α)) : List String := m.map Prod.fst

/-- The sub-dictionary `mapping.get(k, {})` used by `mapping_update` when
it recurses into a nested value.  Yields `none` when the existing value is
present but is not a mapping: in that case the recursive Python call
`mapping_update(mapping.get(k, {}), v)` blows up with a type error. -/
def getMappingD (m : JDict) (k : String) : Option JDict :=
  match lookupKey m k with
  | none => some []
  | some (JValue.obj mo) => some mo
  | some _ => none

/-- Embedding of `becmd.utils.mapping_update` (becmd/utils.py, lines
60-89).  The entries of the second mapping are walked in order; a value
that is itself a mapping is merged recursively into `mapping.get(k, {})`,
any other value overwrites.  `none` embeds the run-time error Python
raises when asked to recurse into a non-mapping. -/
def mapping_update : JDict → JDict → Option JDict
  | m, [] => some m
  | m, (k, JValue.obj o) :: rest =>
    ((getMappingD m k).bind (fun mo => mapping_update mo o)).bind
      (fun sub => mapping_update (setKey m k (JValue.obj sub)) rest)
  | m, (k, v) :: rest => mapping_update (setKey m k v) rest

/-- `k.split(sep)` for a single-character separator, the only shape of
separator the program ever uses (`mapping_expand` is always called with
its default separator `"."`).  Embedded on the character list of the
string; empty segments are kept, exactly as in Python. -/
def splitKey (sep : Char) (s : String) : List String :=
  (s.data.splitOn sep).map String.mk

/-- One iteration of the loop body of `mapping_expand`: starting from the
dictionary `kvs`, walk the non-final key segments with
`d = d.setdefault(p, {})` and assign `d[last] = v`.  Yields `none` when
the walk meets an existing value that is not a mapping, where Python
raises.  (`String.splitOn` never yields an empty list, so the `[]` case
is unreachable.) -/
def insertPath : JDict → List String → JValue → Option JDict
  | _, [], _ => none
  | kvs, [last], v => some (setKey kvs last v)
  | kvs, p :: q :: rest, v =>
    match lookupKey kvs p with
    | none =>
      (insertPath [] (q :: rest) v).map (fun sub => setKey kvs p (JValue.obj sub))
    | some (JValue.obj sub) =>
      (insertPath sub (q :: rest) v).map (fun sub2 => setKey kvs p (JValue.obj sub2))
    | some _ => none

/-- The loop of `mapping_expand` over the items of the flat mapping,
threading the dictionary under construction. -/
def expandGo (sep : Char) : JDict → JDict → Option JDict
  | root, [] => some root
  | root, (k, v) :: rest =>
    match insertPath root (splitKey sep k) v with
    | none => none
    | some root2 => expandGo sep root2 rest

/-- Embedding of `becmd.utils.mapping_expand` (becmd/utils.py, lines
24-57): expand a flat mapping whose keys are separator-joined paths into
a nested mapping. -/
def mapping_expand (sep : Char) (m : JDict) : Option JDict :=
  expandGo sep [] m

/-- The leaves of a nested dictionary, each paired with the segment path
that reaches it.  A value that is itself a mapping is interior, any other
value is a leaf. -/
def leafPaths : JDict → List (List String × JValue)
  | [] => []
  | (k, JValue.obj o) :: rest =>
    (leafPaths o).map (fun pv => (k :: pv.1, pv.2)) ++ leafPaths rest
  | (k, v) :: rest => ([k], v) :: leafPaths rest

/-- Join a path of segments back into a separator-joined key. -/
def joinPath (sep : Char) : List String → String
  | [] => ""
  | [a] => a
  | a :: b :: rest => a ++ String.mk [sep] ++ joinPath sep (b :: rest)

/-- Modelled from the spec: the inverse flattening direction of the
flat/nested key translator (spec §4.2 and §8).  The repository itself
only materialises the expansion direction; flattening collects every
leaf of the nested mapping under its separator-joined key path. -/
def mapping_flatten (sep : Char) (t : JDict) : JDict :=
  (leafPaths t).map (fun pv => (joinPath sep pv.1, pv.2))

theorem lookupKey_setKey {α : Type} (m : List (String × α)) (k k0 : String) (v : α) :
    lookupKey (setKey m k v) k0 = if k = k0 then some v else lookupKey m k0 := by
  induction m with
  | nil => by_cases h : k = k0 <;> simp [setKey, lookupKey, h]
  | cons kv rest ih =>
    obtain ⟨k1, v1⟩ := kv
    by_cases h1 : k1 = k
    · subst h1
      by_cases h0 : k1 = k0 <;> simp [setKey, lookupKey, h0]
    · by_cases h0 : k1 = k0
      · subst h0
        have hk : ¬k = k1 := fun h => h1 h.symm
        simp [setKey, lookupKey, h1, hk]
      · simp [setKey, lookupKey, h1, h0, ih]

theorem lookupKey_eq_none_of_not_mem {α : Type} (m : List (String × α)) (k : String) (h : k ∉ keysOf m) :
    lookupKey m k = none := by
  induction m with
  | nil => rfl
  | cons kv rest ih =>
    obtain ⟨k1, v1⟩ := kv
    simp [keysOf] at h
    have h1 : ¬k1 = k := fun hh => h.1 hh.symm
    have h2 : k ∉ keysOf rest := by simp [keysOf]; exact h.2
    simp [lookupKey, h1, ih h2]

theorem mapping_update_cons_nonobj (m : JDict) (k : String) (v : JValue)
    (rest : JDict) (hv : v.isObj = false) :
    mapping_update m ((k, v) :: rest) = mapping_update (setKey m k v) rest := by
  cases v <;> simp_all [mapping_update, JValue.isObj]

theorem getMappingD_congr (m m2 : JDict) (k : String)
    (h : lookupKey m k = lookupKey m2 k) : getMappingD m k = getMappingD m2 k := by
  simp [getMappingD, h]

/-- Per-key characterisation of `mapping_update` (the second mapping has
the unique keys of a Python dictionary): keys absent from the updating
mapping keep their old binding, non-mapping values overwrite, mapping
values are merged recursively into `mapping.get(k, {})`. -/
theorem mapping_update_lookup (u : JDict) (hu : (keysOf u).Nodup) :
    ∀ m r, mapping_update m u = some r → ∀ k : String,
      (lookupKey u k = none → lookupKey r k = lookupKey m k) ∧
      (∀ v, lookupKey u k = some v → v.isObj = false → lookupKey r k = some v) ∧
      (∀ o, lookupKey u k = some (JValue.obj o) →
        ∃ mo sub, getMappingD m k = some mo ∧ mapping_update mo o = some sub ∧
          lookupKey r k = some (JValue.obj sub)) := by
  induction u with
  | nil =>
    intro m r h k
    simp [mapping_update] at h
    subst h
    refine ⟨fun _ => rfl, ?_, ?_⟩ <;> intro v hv <;> simp [lookupKey] at hv
  | cons kv rest ih =>
    obtain ⟨k0, v0⟩ := kv
    have hk0 : k0 ∉ keysOf rest := by simp [keysOf] at hu ⊢; exact fun a ha => hu.1 a ha
    have hrest : (keysOf rest).Nodup := by simp [keysOf] at hu ⊢; exact hu.2
    intro m r h k
    by_cases hobj : v0.isObj = true
    · -- the head value is itself a mapping: the recursive branch
      obtain ⟨o, rfl⟩ : ∃ o, v0 = JValue.obj o := by
        cases v0 <;> simp [JValue.isObj] at hobj ⊢
      simp only [mapping_update] at h
      cases hg : getMappingD m k0 with
      | none => rw [hg] at h; simp at h
      | some mo =>
        rw [hg] at h
        simp only [Option.some_bind] at h
        cases hs : mapping_update mo o with
        | none => rw [hs] at h; simp at h
        | some sub =>
          rw [hs] at h
          simp only [Option.some_bind] at h
          have hIH := ih hrest (setKey m k0 (JValue.obj sub)) r h
          by_cases hk : k0 = k
          · subst hk
            have hnone : lookupKey rest k0 = none :=
              lookupKey_eq_none_of_not_mem rest k0 hk0
            have hr : lookupKey r k0 = some (JValue.obj sub) := by
              rw [(hIH k0).1 hnone, lookupKey_setKey]; simp
            refine ⟨?_, ?_, ?_⟩
            · intro hcon; simp [lookupKey] at hcon
            · intro v hv hvobj
              simp [lookupKey] at hv
              rw [← hv] at hvobj; simp [JValue.isObj] at hvobj
            · intro o2 ho2
              simp [lookupKey] at ho2
              exact ⟨mo, sub, hg, by rw [← ho2]; exact hs, hr⟩
          · have hlk : lookupKey ((k0, JValue.obj o) :: rest) k = lookupKey rest k := by
              simp [lookupKey, hk]
            have hset : lookupKey (setKey m k0 (JValue.obj sub)) k = lookupKey m k := by
              rw [lookupKey_setKey]; simp [hk]
            refine ⟨?_, ?_, ?_⟩
            · intro hn; rw [hlk] at hn
              rw [(hIH k).1 hn, hset]
            · intro v hv hvobj; rw [hlk] at hv
              exact (hIH k).2.1 v hv hvobj
            · intro o2 ho2; rw [hlk] at ho2
              obtain ⟨mo2, sub2, hg2, hs2, hr2⟩ := (hIH k).2.2 o2 ho2
              exact ⟨mo2, sub2, by
                rw [← hg2]
                exact getMappingD_congr m (setKey m k0 (JValue.obj sub)) k hset.symm,
                hs2, hr2⟩
    · -- the head value is not a mapping: plain overwrite
      have hobj2 : v0.isObj = false := by simpa using hobj
      rw [mapping_update_cons_nonobj m k0 v0 rest hobj2] at h
      have hIH := ih hrest (setKey m k0 v0) r h
      by_cases hk : k0 = k
      · subst hk
        have hnone : lookupKey rest k0 = none :=
          lookupKey_eq_none_of_not_mem rest k0 hk0
        have hr : lookupKey r k0 = some v0 := by
          rw [(hIH k0).1 hnone, lookupKey_setKey]; simp
        refine ⟨?_, ?_, ?_⟩
        · intro hcon; simp [lookupKey] at hcon
        · intro v hv _
          simp [lookupKey] at hv
          rw [← hv]; exact hr
        · intro o2 ho2
          simp [lookupKey] at ho2
          rw [ho2] at hobj2; simp [JValue.isObj] at hobj2
      · have hlk : lookupKey ((k0, v0) :: rest) k = lookupKey rest k := by
          simp [lookupKey, hk]
        have hset : lookupKey (setKey m k0 v0) k = lookupKey m k := by
          rw [lookupKey_setKey]; simp [hk]
        refine ⟨?_, ?_, ?_⟩
        · intro hn; rw [hlk] at hn
          rw [(hIH k).1 hn, hset]
        · intro v hv hvobj; rw [hlk] at hv
          exact (hIH k).2.1 v hv hvobj
        · intro o2 ho2; rw [hlk] at ho2
          obtain ⟨mo2, sub2, hg2, hs2, hr2⟩ := (hIH k).2.2 o2 ho2
          exact ⟨mo2, sub2, by
            rw [← hg2]
            exact getMappingD_congr m (setKey m k0 v0) k hset.symm,
            hs2, hr2⟩

/-- C2: for every pair of nested mappings, `mapping_update` merges the
second into the first right-biased per leaf key and recurses only into
values that are themselves mappings (non-mapping values overwrite); in
particular merging `{"baz": {"foo": "foo"}, "fizz": "buzz"}` with
`{"baz": {"bar": "bar"}, "fizz": "fizzbuzz"}` yields
`{"baz": {"foo": "foo", "bar": "bar"}, "fizz": "fizzbuzz"}`. -/
theorem mapping_update_right_biased_deep_merge :
    (∀ m u r : JDict, (keysOf u).Nodup → mapping_update m u = some r →
      ∀ k : String,
        (lookupKey u k = none → lookupKey r k = lookupKey m k) ∧
        (∀ v, lookupKey u k = some v → v.isObj = false → lookupKey r k = some v) ∧
        (∀ o, lookupKey u k = some (JValue.obj o) →
          ∃ mo sub, getMappingD m k = some mo ∧ mapping_update mo o = some sub ∧
            lookupKey r k = some (JValue.obj sub))) ∧
    mapping_update
      [("baz", JValue.obj [("foo", JValue.str "foo")]), ("fizz", JValue.str "buzz")]
      [("baz", JValue.obj [("bar", JValue.str "bar")]), ("fizz", JValue.str "fizzbuzz")]
    = some [("baz", JValue.obj [("foo", JValue.str "foo"), ("bar", JValue.str "bar")]),
            ("fizz", JValue.str "fizzbuzz")] := by
  constructor
  · intro m u r hu h k
    exact mapping_update_lookup u hu m r h k
  · simp [mapping_update, getMappingD, lookupKey, setKey]

/-- Witness for C2: the characterisation applied to the documented
example, at the key `"fizz"` (a non-mapping value overwrites). -/
theorem mapping_update_right_biased_deep_merge_witness :
    lookupKey
      [("baz", JValue.obj [("foo", JValue.str "foo"), ("bar", JValue.str "bar")]),
       ("fizz", JValue.str "fizzbuzz")] "fizz" = some (JValue.str "fizzbuzz") :=
  (mapping_update_right_biased_deep_merge.1
      [("baz", JValue.obj [("foo", JValue.str "foo")]), ("fizz", JValue.str "buzz")]
      [("baz", JValue.obj [("bar", JValue.str "bar")]), ("fizz", JValue.str "fizzbuzz")]
      [("baz", JValue.obj [("foo", JValue.str "foo"), ("bar", JValue.str "bar")]),
       ("fizz", JValue.str "fizzbuzz")]
      (by simp [keysOf])
      (by simp [mapping_update, getMappingD, lookupKey, setKey])
      "fizz").2.1 (JValue.str "fizzbuzz")
    (by simp [lookupKey]) (by simp [JValue.isObj])

example :
    mapping_expand '.' [("a", JValue.num 1), ("b.c.d", JValue.num 2)]
    = some [("a", JValue.num 1),
            ("b", JValue.obj [("c", JValue.obj [("d", JValue.num 2)])])] := by
  simp [mapping_expand, expandGo, insertPath, splitKey, lookupKey, setKey]

example :
    mapping_flatten '.'
      [("a", JValue.num 1),
       ("b", JValue.obj [("c", JValue.obj [("d", JValue.num 2)])])]
    = [("a", JValue.num 1), ("b.c.d", JValue.num 2)] := by
  simp [mapping_flatten, leafPaths, joinPath]

/-- Character-level counterpart of `joinPath`. -/
def charJoin (sep : Char) : List (List Char) → List Char
  | [] => []
  | [a] => a
  | a :: b :: rest => a ++ sep :: charJoin sep (b :: rest)

theorem charJoin_cons_of_ne_nil (sep : Char) (a : List Char)
    (L : List (List Char)) (hL : L ≠ []) :
    charJoin sep (a :: L) = a ++ sep :: charJoin sep L := by
  cases L with
  | nil => exact absurd rfl hL
  | cons b rest => rfl

theorem charJoin_modifyHead (sep : Char) (c : Char) (l : List Char)
    (ls : List (List Char)) :
    charJoin sep ((c :: l) :: ls) = c :: charJoin sep (l :: ls) := by
  cases ls <;> simp [charJoin]

theorem charJoin_splitOn (sep : Char) (cs : List Char) :
    charJoin sep (cs.splitOn sep) = cs := by
  induction cs with
  | nil => rfl
  | cons c rest ih =>
    simp only [List.splitOn] at ih ⊢
    rw [List.splitOnP_cons]
    by_cases h : c = sep
    · rw [if_pos (by simp [h])]
      rw [charJoin_cons_of_ne_nil sep [] _ (List.splitOnP_ne_nil _ rest)]
      simp [ih, h]
    · rw [if_neg (by simp [h])]
      cases hL : rest.splitOnP (· == sep) with
      | nil => exact absurd hL (List.splitOnP_ne_nil _ rest)
      | cons l ls =>
        rw [hL] at ih
        simp only [List.modifyHead, charJoin_modifyHead]
        rw [ih]

theorem joinPath_map_mk (sep : Char) (L : List (List Char)) :
    joinPath sep (L.map String.mk) = String.mk (charJoin sep L) := by
  induction L with
  | nil => rfl
  | cons a rest ih =>
    cases rest with
    | nil => rfl
    | cons b rest2 =>
      show String.mk a ++ String.mk [sep] ++ joinPath sep (String.mk b :: rest2.map String.mk)
        = String.mk (charJoin sep (a :: b :: rest2))
      rw [show String.mk b :: rest2.map String.mk = (b :: rest2).map String.mk from rfl, ih]
      show String.mk ((a ++ [sep]) ++ charJoin sep (b :: rest2)) = _
      rw [charJoin_cons_of_ne_nil sep a (b :: rest2) (by simp)]
      simp

/-- Joining the segments of `k.split(sep)` restores the key `k`. -/
theorem joinPath_splitKey (sep : Char) (s : String) :
    joinPath sep (splitKey sep s) = s := by
  rw [splitKey, joinPath_map_mk, charJoin_splitOn]

theorem splitKey_ne_nil (sep : Char) (s : String) : splitKey sep s ≠ [] := by
  rw [splitKey]
  intro h
  exact List.splitOnP_ne_nil _ s.data (List.map_eq_nil_iff.1 h)

theorem lookupKey_eq_none_iff {α : Type} (m : List (String × α)) (k : String) :
    lookupKey m k = none ↔ k ∉ keysOf m := by
  induction m with
  | nil => simp [lookupKey, keysOf]
  | cons kv rest ih =>
    obtain ⟨k1, v1⟩ := kv
    by_cases h1 : k1 = k
    · simp [lookupKey, keysOf, h1]
    · have h2 : ¬k = k1 := fun hh => h1 hh.symm
      simp [lookupKey, keysOf, h1, h2, ih]

theorem setKey_eq_append {α : Type} (m : List (String × α)) (k : String) (v : α)
    (h : k ∉ keysOf m) : setKey m k v = m ++ [(k, v)] := by
  induction m with
  | nil => rfl
  | cons kv rest ih =>
    obtain ⟨k1, v1⟩ := kv
    simp [keysOf] at h
    have h1 : ¬k1 = k := fun hh => h.1 hh.symm
    simp [setKey, h1]
    exact ih (by simp [keysOf]; exact h.2)

theorem lookupKey_some_split {α : Type} (m : List (String × α)) (k : String) (w : α)
    (h : lookupKey m k = some w) :
    ∃ m1 m2, m = m1 ++ (k, w) :: m2 ∧ k ∉ keysOf m1 ∧
      ∀ v, setKey m k v = m1 ++ (k, v) :: m2 := by
  induction m with
  | nil => simp [lookupKey] at h
  | cons kv rest ih =>
    obtain ⟨k1, v1⟩ := kv
    by_cases h1 : k1 = k
    · subst h1
      simp [lookupKey] at h
      subst h
      exact ⟨[], rest, by simp, by simp [keysOf], fun v => by simp [setKey]⟩
    · simp [lookupKey, h1] at h
      obtain ⟨m1, m2, hm, hk, hset⟩ := ih h
      refine ⟨(k1, v1) :: m1, m2, by simp [hm], ?_, fun v => by simp [setKey, h1, hset v]⟩
      simp [keysOf] at hk ⊢
      exact ⟨fun hh => h1 hh.symm, hk⟩

theorem jvalue_obj_of_isObj (v : JValue) (h : v.isObj = true) :
    ∃ o, v = JValue.obj o := by
  cases v <;> simp [JValue.isObj] at h ⊢

theorem leafPaths_cons_obj (k : String) (o rest : JDict) :
    leafPaths ((k, JValue.obj o) :: rest)
      = (leafPaths o).map (fun pv => (k :: pv.1, pv.2)) ++ leafPaths rest := by
  simp [leafPaths]

theorem leafPaths_cons_nonobj (k : String) (v : JValue) (rest : JDict)
    (hv : v.isObj = false) :
    leafPaths ((k, v) :: rest) = ([k], v) :: leafPaths rest := by
  cases v <;> simp_all [leafPaths, JValue.isObj]

theorem leafPaths_append (a b : JDict) :
    leafPaths (a ++ b) = leafPaths a ++ leafPaths b := by
  induction a with
  | nil => simp [leafPaths]
  | cons kv rest ih =>
    obtain ⟨k, v⟩ := kv
    by_cases hv : v.isObj = true
    · obtain ⟨o, rfl⟩ := jvalue_obj_of_isObj v hv
      simp [leafPaths_cons_obj, ih]
    · have hv2 : v.isObj = false := by simpa using hv
      simp [List.cons_append, leafPaths_cons_nonobj _ _ _ hv2, ih]

theorem leafPaths_fst_ne_nil (t : JDict) :
    ∀ pv ∈ leafPaths t, pv.1 ≠ [] := by
  induction t with
  | nil => simp [leafPaths]
  | cons kv rest ih =>
    obtain ⟨k, v⟩ := kv
    by_cases hv : v.isObj = true
    · obtain ⟨o, rfl⟩ := jvalue_obj_of_isObj v hv
      rw [leafPaths_cons_obj]
      intro pv hpv
      rcases List.mem_append.1 hpv with hl | hr
      · obtain ⟨qv, _, rfl⟩ := List.mem_map.1 hl
        simp
      · exact ih pv hr
    · have hv2 : v.isObj = false := by simpa using hv
      rw [leafPaths_cons_nonobj _ _ _ hv2]
      intro pv hpv
      rcases List.mem_cons.1 hpv with rfl | hr
      · simp
      · exact ih pv hr

theorem mem_leafPaths_of_lookup_atom (t : JDict) (k : String) (w : JValue)
    (h : lookupKey t k = some w) (hw : w.isObj = false) :
    ([k], w) ∈ leafPaths t := by
  obtain ⟨m1, m2, rfl, _, _⟩ := lookupKey_some_split t k w h
  simp [leafPaths_append, leafPaths_cons_nonobj _ _ _ hw]

theorem mem_leafPaths_of_lookup_obj (t : JDict) (k : String) (sub : JDict)
    (q : List String) (w : JValue)
    (h : lookupKey t k = some (JValue.obj sub)) (hq : (q, w) ∈ leafPaths sub) :
    (k :: q, w) ∈ leafPaths t := by
  obtain ⟨m1, m2, rfl, _, _⟩ := lookupKey_some_split t k (JValue.obj sub) h
  rw [leafPaths_append, leafPaths_cons_obj]
  refine List.mem_append.2 (Or.inr (List.mem_append.2 (Or.inl ?_)))
  exact List.mem_map.2 ⟨(q, w), hq, rfl⟩

/-- The fresh nested dictionary `mapping_expand` builds below a key
segment that was not present yet. -/
def freshTrie : List String → JValue → JDict
  | [], _ => []
  | [last], v => [(last, v)]
  | p :: q :: rest, v => [(p, JValue.obj (freshTrie (q :: rest) v))]

theorem insertPath_nil : ∀ (p : List String) (v : JValue), p ≠ [] →
    insertPath [] p v = some (freshTrie p v)
  | [], _, hp => absurd rfl hp
  | [last], v, _ => by simp [insertPath, freshTrie, setKey]
  | p0 :: q :: rest, v, _ => by
    simp [insertPath, lookupKey, insertPath_nil (q :: rest) v (by simp),
      freshTrie, setKey]

theorem leafPaths_freshTrie : ∀ (p : List String) (v : JValue),
    v.isObj = false → p ≠ [] → leafPaths (freshTrie p v) = [(p, v)]
  | [], _, _, hp => absurd rfl hp
  | [last], v, hv, _ => by
    simp [freshTrie, leafPaths_cons_nonobj _ _ _ hv, leafPaths]
  | p0 :: q :: rest, v, hv, _ => by
    simp [freshTrie, leafPaths_cons_obj, leafPaths,
      leafPaths_freshTrie (q :: rest) v hv (by simp)]

/-- Inserting a fresh, conflict-free segment path into a nested
dictionary succeeds and adds exactly one leaf. -/
theorem insertPath_spec : ∀ (p : List String) (t : JDict) (v : JValue),
    v.isObj = false → p ≠ [] →
    (∀ q ∈ (leafPaths t).map Prod.fst, ¬q <+: p ∧ ¬p <+: q) →
    ∃ t2, insertPath t p v = some t2 ∧
      (leafPaths t2).Perm ((p, v) :: leafPaths t)
  | [], _, _, _, hp, _ => absurd rfl hp
  | [last], t, v, hv, _, hfree => by
    refine ⟨setKey t last v, by simp [insertPath], ?_⟩
    cases hl : lookupKey t last with
    | none =>
      have hnm : last ∉ keysOf t := (lookupKey_eq_none_iff t last).1 hl
      rw [setKey_eq_append t last v hnm, leafPaths_append,
        leafPaths_cons_nonobj _ _ _ hv,
        show leafPaths ([] : JDict) = [] from by simp [leafPaths]]
      exact List.perm_append_singleton ([last], v) (leafPaths t)
    | some w =>
      by_cases hwobj : w.isObj = true
      · obtain ⟨o, rfl⟩ := jvalue_obj_of_isObj w hwobj
        have ho : leafPaths o = [] := by
          by_contra hne
          obtain ⟨⟨q, w2⟩, hq⟩ := List.exists_mem_of_ne_nil _ hne
          have hmem := mem_leafPaths_of_lookup_obj t last o q w2 hl hq
          refine (hfree (last :: q) (List.mem_map_of_mem _ hmem)).2 ?_
          rw [List.cons_prefix_cons]
          exact ⟨rfl, List.nil_prefix⟩
        obtain ⟨m1, m2, rfl, hnm1, hset⟩ := lookupKey_some_split t last _ hl
        rw [hset v, leafPaths_append, leafPaths_append, leafPaths_cons_obj,
          leafPaths_cons_nonobj _ _ _ hv, ho]
        simpa using List.perm_middle
      · have hw2 : w.isObj = false := by simpa using hwobj
        have hmem := mem_leafPaths_of_lookup_atom t last w hl hw2
        exact absurd (List.prefix_refl [last])
          (hfree [last] (List.mem_map_of_mem _ hmem)).1
  | p0 :: q0 :: rest, t, v, hv, _, hfree => by
    cases hl : lookupKey t p0 with
    | none =>
      have hnm : p0 ∉ keysOf t := (lookupKey_eq_none_iff t p0).1 hl
      refine ⟨setKey t p0 (JValue.obj (freshTrie (q0 :: rest) v)), ?_, ?_⟩
      · rw [insertPath, hl, insertPath_nil (q0 :: rest) v (by simp)]
        rfl
      · rw [setKey_eq_append _ _ _ hnm, leafPaths_append, leafPaths_cons_obj,
          leafPaths_freshTrie (q0 :: rest) v hv (by simp),
          show leafPaths ([] : JDict) = [] from by simp [leafPaths]]
        simp only [List.map_cons, List.map_nil, List.append_nil]
        exact List.perm_append_singleton (p0 :: q0 :: rest, v) (leafPaths t)
    | some w =>
      by_cases hwobj : w.isObj = true
      · obtain ⟨sub, rfl⟩ := jvalue_obj_of_isObj w hwobj
        have hfree2 : ∀ q ∈ (leafPaths sub).map Prod.fst,
            ¬q <+: (q0 :: rest) ∧ ¬(q0 :: rest) <+: q := by
          intro q hq
          obtain ⟨⟨q2, w2⟩, hq2, hfst⟩ := List.mem_map.1 hq
          have hq2' : (q, w2) ∈ leafPaths sub := by
            cases hfst; exact hq2
          have hmem := mem_leafPaths_of_lookup_obj t p0 sub q w2 hl hq2'
          have h2 := hfree (p0 :: q) (List.mem_map_of_mem _ hmem)
          constructor
          · intro hpre
            exact h2.1 (by rw [List.cons_prefix_cons]; exact ⟨rfl, hpre⟩)
          · intro hpre
            exact h2.2 (by rw [List.cons_prefix_cons]; exact ⟨rfl, hpre⟩)
        obtain ⟨sub2, hins, hperm⟩ :=
          insertPath_spec (q0 :: rest) sub v hv (by simp) hfree2
        obtain ⟨m1, m2, rfl, hnm1, hset⟩ := lookupKey_some_split t p0 _ hl
        refine ⟨setKey (m1 ++ (p0, JValue.obj sub) :: m2) p0 (JValue.obj sub2), ?_, ?_⟩
        · rw [insertPath, hl]
          simp [hins]
        · rw [hset (JValue.obj sub2), leafPaths_append, leafPaths_append,
            leafPaths_cons_obj, leafPaths_cons_obj]
          have hmap := hperm.map (fun pv => (p0 :: pv.1, pv.2))
          simp only [List.map_cons] at hmap
          refine List.Perm.trans (List.Perm.append_left (leafPaths m1)
            (List.Perm.append_right (leafPaths m2) hmap)) ?_
          simpa using List.perm_middle
      · have hw2 : w.isObj = false := by simpa using hwobj
        have hmem := mem_leafPaths_of_lookup_atom t p0 w hl hw2
        refine absurd ?_ (hfree [p0] (List.mem_map_of_mem _ hmem)).1
        rw [List.cons_prefix_cons]
        exact ⟨rfl, List.nil_prefix⟩

/-- The expansion loop over a prefix-free flat mapping with non-mapping
values succeeds and accumulates exactly one leaf per entry. -/
theorem expandGo_spec (sep : Char) :
    ∀ (m t : JDict),
    (∀ kv ∈ m, (kv.2 : JValue).isObj = false) →
    (∀ q ∈ (leafPaths t).map Prod.fst, ∀ p ∈ m.map (fun kv => splitKey sep kv.1),
      ¬q <+: p ∧ ¬p <+: q) →
    (m.map (fun kv => splitKey sep kv.1)).Pairwise (fun p q => ¬p <+: q ∧ ¬q <+: p) →
    ∃ r, expandGo sep t m = some r ∧
      (leafPaths r).Perm ((m.map (fun kv => (splitKey sep kv.1, kv.2))) ++ leafPaths t)
  | [], t, _, _, _ => ⟨t, rfl, by simp⟩
  | (k, v) :: rest, t, hval, hcross, hpw => by
    have hvhead : v.isObj = false := hval (k, v) (by simp)
    have hfree : ∀ q ∈ (leafPaths t).map Prod.fst,
        ¬q <+: splitKey sep k ∧ ¬splitKey sep k <+: q := by
      intro q hq
      exact hcross q hq (splitKey sep k) (by simp)
    obtain ⟨t2, hins, hperm⟩ :=
      insertPath_spec (splitKey sep k) t v hvhead (splitKey_ne_nil sep k) hfree
    rw [List.map_cons, List.pairwise_cons] at hpw
    have hcross2 : ∀ q ∈ (leafPaths t2).map Prod.fst,
        ∀ p ∈ rest.map (fun kv => splitKey sep kv.1), ¬q <+: p ∧ ¬p <+: q := by
      intro q hq p hp
      have hq2 : q ∈ splitKey sep k :: (leafPaths t).map Prod.fst := by
        have h4 := (hperm.map Prod.fst).mem_iff.1 hq
        rw [List.map_cons] at h4
        exact h4
      rcases List.mem_cons.1 hq2 with rfl | hq3
      · exact hpw.1 p hp
      · exact hcross q hq3 p (by simp; exact Or.inr (by simpa using hp))
    obtain ⟨r, hgo, hperm2⟩ := expandGo_spec sep rest t2
      (fun kv hkv => hval kv (by simp [hkv])) hcross2 hpw.2
    refine ⟨r, ?_, ?_⟩
    · rw [expandGo]
      simp [hins, hgo]
    · refine hperm2.trans ?_
      refine (List.Perm.append_left _ hperm).trans ?_
      simpa using List.perm_middle

/-- C3: for every flat mapping with string keys in which no key path is a
strict prefix of another key path, `mapping_expand` splits each key on the
separator, stores the value at the last segment inside nested mappings
for the intermediate segments, merges subtrees sharing a non-terminal
prefix, and flattening the expansion back to dotted keys round-trips to
the original mapping; in particular
`{"a": 1, "b.c.d": 2}` expands to `{"a": 1, "b": {"c": {"d": 2}}}`. -/
theorem mapping_expand_flatten_roundtrip :
    (∀ m : JDict,
      (∀ kv ∈ m, (kv.2 : JValue).isObj = false) →
      (m.map (fun kv => splitKey '.' kv.1)).Pairwise
        (fun p q => ¬p <+: q ∧ ¬q <+: p) →
      ∃ r, mapping_expand '.' m = some r ∧ (mapping_flatten '.' r).Perm m) ∧
    mapping_expand '.' [("a", JValue.num 1), ("b.c.d", JValue.num 2)]
      = some [("a", JValue.num 1),
              ("b", JValue.obj [("c", JValue.obj [("d", JValue.num 2)])])] := by
  constructor
  · intro m hval hpw
    obtain ⟨r, hr, hperm⟩ := expandGo_spec '.' m [] hval (by simp [leafPaths]) hpw
    rw [show leafPaths ([] : JDict) = [] from by simp [leafPaths],
      List.append_nil] at hperm
    refine ⟨r, hr, ?_⟩
    have hflat := hperm.map (fun pv => (joinPath '.' pv.1, pv.2))
    rw [mapping_flatten]
    refine hflat.trans ?_
    rw [List.map_map]
    have hcomp : ∀ kv : String × JValue,
        ((fun pv : List String × JValue => (joinPath '.' pv.1, pv.2)) ∘
          (fun kv : String × JValue => (splitKey '.' kv.1, kv.2))) kv = kv := by
      intro kv
      simp [Function.comp, joinPath_splitKey]
    rw [List.map_congr_left (fun kv _ => hcomp kv)]
    simp
  · simp [mapping_expand, expandGo, insertPath, splitKey, lookupKey, setKey]

/-- Witness for C3: the round trip instantiated on the documented
example mapping. -/
theorem mapping_expand_flatten_roundtrip_witness :
    ∃ r, mapping_expand '.' [("a", JValue.num 1), ("b.c.d", JValue.num 2)] = some r ∧
      (mapping_flatten '.' r).Perm [("a", JValue.num 1), ("b.c.d", JValue.num 2)] :=
  mapping_expand_flatten_roundtrip.1
    [("a", JValue.num 1), ("b.c.d", JValue.num 2)]
    (by
      intro kv hkv
      rcases List.mem_cons.1 hkv with rfl | hkv
      · rfl
      · rcases List.mem_cons.1 hkv with rfl | hkv
        · rfl
        · simp at hkv)
    (by decide)

/-- Set of reserved configuration keys (becmd/schema.py, line 33). -/
def CONFIG_RESERVED_KEYS : List String := ["becmd", "hosts", "logging"]

/-- The character list a Python regular expression actually checks
against `...$`: `$` also matches just before one trailing newline. -/
def reBody (s : String) : List Char :=
  if s.data.getLast? = some '\n' then s.data.dropLast else s.data

/-- Does `s` start with one of the reserved configuration keys? -/
def startsWithReserved (s : String) : Bool :=
  "becmd".data.isPrefixOf s.data || "hosts".data.isPrefixOf s.data ||
    "logging".data.isPrefixOf s.data

/-- Semantics of the host-name regular expression of becmd/schema.py,
line 111: one or more characters drawn from digits, ASCII letters, dot,
underscore and dash. -/
def hostPatternMatches (s : String) : Bool :=
  let body := reBody s
  !body.isEmpty &&
    body.all (fun c => c.isAlphanum || c = '.' || c = '_' || c = '-')

/-- Semantics of `RESERVED_KEYS_PATTERN` (becmd/schema.py, line 47),
the regular expression `^(?:(?!becmd|hosts|logging).+)$`: a negative
lookahead anchored at the start followed by `.+`.  It matches any
nonempty newline-free string (up to one trailing newline) that does not
START with one of the reserved keys — a starts-with exclusion, not an
equality test. -/
def RESERVED_KEYS_PATTERN (s : String) : Bool :=
  let body := reBody s
  !body.isEmpty && body.all (fun c => c ≠ '\n') && !startsWithReserved s

/-- The string patterns appearing in the schemas, as data. -/
inductive StrPattern where
  | hostChars
  | notReservedKey
  deriving Repr, DecidableEq

/-- Evaluate a schema pattern on a string. -/
def StrPattern.matches : StrPattern → String → Bool
  | StrPattern.hostChars, s => hostPatternMatches s
  | StrPattern.notReservedKey, s => RESERVED_KEYS_PATTERN s

/-- Modelled from the spec: the validators of the external validx
library (not part of src/), as described in spec §4.3: declarative
schemas with required/optional keys, type constraints, string pattern
constraints, enumerations and default injection.  Every `Str` in the
repository has `nullable=False`, so nullability is not modelled.
`vdict` carries the schema fields, the defaults, the optional keys, the
optional `extra` pair of key/value validators, and the disposed keys. -/
inductive Validator where
  | vstr (pattern : Option StrPattern) (options : Option (List String))
  | vbool
  | vfloat
  | vdict (schema : List (String × Validator)) (defaults : JDict)
      (optional : List String) (extra : Option (Validator × Validator))
      (dispose : List String)

/-- Structured validation violations: a missing required key, a key
outside the schema of a dictionary without `extra`, or an invalid value
reported under the key it sits at (`""` for the top level). -/
inductive VErr where
  | missingKey (k : String)
  | forbiddenKey (k : String)
  | invalidValue (k : String)
  deriving Repr, DecidableEq

mutual

/-- Modelled from the spec (§4.3): apply a declarative schema to a
value, collecting all violations; on success return the value with
defaults filled in for absent defaulted keys. -/
def validateJ : Validator → JValue → Except (List VErr) JValue
  | Validator.vstr pat opts, JValue.str s =>
    if (match pat with
        | none => true
        | some p => p.matches s)
        && (match opts with
            | none => true
            | some os => os.contains s) then
      Except.ok (JValue.str s)
    else
      Except.error [VErr.invalidValue ""]
  | Validator.vstr _ _, _ => Except.error [VErr.invalidValue ""]
  | Validator.vbool, JValue.bool b => Except.ok (JValue.bool b)
  | Validator.vbool, _ => Except.error [VErr.invalidValue ""]
  | Validator.vfloat, JValue.num q => Except.ok (JValue.num q)
  | Validator.vfloat, _ => Except.error [VErr.invalidValue ""]
  | Validator.vdict schema defaults optional extra dispose, JValue.obj kvs =>
    let value := kvs.filter (fun kv => !dispose.contains kv.1)
    let f := validateFields schema value defaults optional
    let e := validateExtras extra (schema.map Prod.fst) value
    if (f.1 ++ e.1).isEmpty then Except.ok (JValue.obj (f.2 ++ e.2))
    else Except.error (f.1 ++ e.1)
  | Validator.vdict _ _ _ _ _, _ => Except.error [VErr.invalidValue ""]

/-- Walk the schema fields in order: a present key is validated, an
absent key takes its default when one is declared, is skipped when
optional, and is reported missing otherwise. -/
def validateFields (schema : List (String × Validator)) (value : JDict)
    (defaults : JDict) (optional : List String) : List VErr × JDict :=
  match schema with
  | [] => ([], [])
  | (k, fv) :: rest =>
    let tail := validateFields rest value defaults optional
    match lookupKey value k with
    | some v =>
      match validateJ fv v with
      | Except.ok o => (tail.1, (k, o) :: tail.2)
      | Except.error _ => (VErr.invalidValue k :: tail.1, tail.2)
    | none =>
      match lookupKey defaults k with
      | some d => (tail.1, (k, d) :: tail.2)
      | none =>
        if k ∈ optional then tail else (VErr.missingKey k :: tail.1, tail.2)

/-- Walk the keys outside the schema: forbidden when the dictionary has
no `extra` declaration, otherwise the key is checked by the extra key
validator and the value by the extra value validator. -/
def validateExtras (extra : Option (Validator × Validator))
    (schemaKeys : List String) (value : JDict) : List VErr × JDict :=
  match value with
  | [] => ([], [])
  | (k, v) :: rest =>
    let tail := validateExtras extra schemaKeys rest
    if k ∈ schemaKeys then tail
    else
      match extra with
      | none => (VErr.forbiddenKey k :: tail.1, tail.2)
      | some (kval, vval) =>
        let keyErrs :=
          match validateJ kval (JValue.str k) with
          | Except.ok _ => ([] : List VErr)
          | Except.error _ => [VErr.invalidValue k]
        match validateJ vval v with
        | Except.ok o => (keyErrs ++ tail.1, (k, o) :: tail.2)
        | Except.error _ => (keyErrs ++ VErr.invalidValue k :: tail.1, tail.2)

end

/-- Embedding of `becmd.schema.validate` (becmd/schema.py, lines
150-185): validate an object against its schema; the Python wrapper
logs each structured violation and raises `ValidationError`, embedded
here as the `Except.error` carrying the violation list. -/
def validate (schema : Validator) (obj : JValue) : Except (List VErr) JValue :=
  validateJ schema obj

/-- Validation schema for the common hosts configuration
(becmd/schema.py, lines 51-73). -/
def CommonHosts : Validator :=
  Validator.vdict
    [("api_key", Validator.vstr none none),
     ("default", Validator.vstr (some StrPattern.notReservedKey) none),
     ("insecure_tls", Validator.vbool),
     ("timeout", Validator.vfloat),
     ("use_cache", Validator.vbool),
     ("use_https", Validator.vbool)]
    [("insecure_tls", JValue.bool false),
     ("use_cache", JValue.bool true),
     ("use_https", JValue.bool true)]
    ["api_key", "default", "insecure_tls", "timeout", "use_cache", "use_https"]
    none
    []

/-- Validation schema for a host configuration (becmd/schema.py, lines
108-123).  Only `insecure_tls`, `use_cache` and `use_https` carry
defaults; nothing is optional, and the `default` key is disposed. -/
def Host : Validator :=
  Validator.vdict
    [("api_key", Validator.vstr none none),
     ("host", Validator.vstr (some StrPattern.hostChars) none),
     ("insecure_tls", Validator.vbool),
     ("timeout", Validator.vfloat),
     ("use_cache", Validator.vbool),
     ("use_https", Validator.vbool)]
    [("insecure_tls", JValue.bool false),
     ("use_cache", JValue.bool true),
     ("use_https", JValue.bool true)]
    []
    none
    ["default"]

/-- `Host.clone()` with `api_key` and `host` made optional
(becmd/schema.py, lines 127-128). -/
def HostOpt : Validator :=
  Validator.vdict
    [("api_key", Validator.vstr none none),
     ("host", Validator.vstr (some StrPattern.hostChars) none),
     ("insecure_tls", Validator.vbool),
     ("timeout", Validator.vfloat),
     ("use_cache", Validator.vbool),
     ("use_https", Validator.vbool)]
    [("insecure_tls", JValue.bool false),
     ("use_cache", JValue.bool true),
     ("use_https", JValue.bool true)]
    ["api_key", "host"]
    none
    ["default"]

/-- Validation schema for the set of host configurations
(becmd/schema.py, lines 132-134): no fixed fields, every key is an
extra one checked against `RESERVED_KEYS_PATTERN`, with `HostOpt`
validating the value. -/
def ConfigHost : Validator :=
  Validator.vdict [] [] []
    (some (Validator.vstr (some StrPattern.notReservedKey) none, HostOpt))
    []

theorem lookupKey_filter_none {α : Type} (m : List (String × α)) (p : String × α → Bool)
    (k : String) (h : lookupKey m k = none) : lookupKey (m.filter p) k = none := by
  induction m with
  | nil => rfl
  | cons kv rest ih =>
    obtain ⟨k1, v1⟩ := kv
    by_cases h1 : k1 = k
    · simp [lookupKey, h1] at h
    · simp only [lookupKey, if_neg h1] at h
      by_cases hp : p (k1, v1) <;>
        simp [List.filter_cons, hp, lookupKey, h1, ih h]

theorem validateFields_missing_head (k : String) (fv : Validator)
    (rest : List (String × Validator)) (value defaults : JDict)
    (optional : List String) (hv : lookupKey value k = none)
    (hd : lookupKey defaults k = none) (ho : k ∉ optional) :
    validateFields ((k, fv) :: rest) value defaults optional
      = (VErr.missingKey k :: (validateFields rest value defaults optional).1,
         (validateFields rest value defaults optional).2) := by
  rw [validateFields, hv, hd]
  simp [ho]

/-- C4 counterexample: validating with the `Host` schema an object that
only sets `host` does not succeed; `api_key` and `timeout` carry no
default and are not optional, so both are reported missing. -/
theorem host_only_host_is_rejected :
    validate Host (JValue.obj [("host", JValue.str "scan1")])
      = Except.error [VErr.missingKey "api_key", VErr.missingKey "timeout"] := by
  have hp : hostPatternMatches "scan1" = true := by decide
  simp [validate, validateJ, validateFields, validateExtras, Host, lookupKey,
    StrPattern.matches, hp]

/-- C4 (amended): validating with the `Host` schema an object that sets
`host` (to a hostname-safe string), `api_key` and `timeout` succeeds and
returns the object with the defaults `use_https=true`, `use_cache=true`
and `insecure_tls=false` injected for the absent keys; `timeout` has no
schema default, so it must be supplied. -/
theorem host_defaults_injected (h k : String) (t : Rat)
    (hh : hostPatternMatches h = true) :
    validate Host (JValue.obj
      [("host", JValue.str h), ("api_key", JValue.str k), ("timeout", JValue.num t)])
      = Except.ok (JValue.obj
        [("api_key", JValue.str k), ("host", JValue.str h),
         ("insecure_tls", JValue.bool false), ("timeout", JValue.num t),
         ("use_cache", JValue.bool true), ("use_https", JValue.bool true)]) := by
  simp [validate, validateJ, validateFields, validateExtras, Host, lookupKey,
    StrPattern.matches, hh]

/-- Witness for C4 (amended): the defaults are injected for a concrete
host record. -/
theorem host_defaults_injected_witness :
    validate Host (JValue.obj
      [("host", JValue.str "scan1"), ("api_key", JValue.str "SECRET"),
       ("timeout", JValue.num 15)])
      = Except.ok (JValue.obj
        [("api_key", JValue.str "SECRET"), ("host", JValue.str "scan1"),
         ("insecure_tls", JValue.bool false), ("timeout", JValue.num 15),
         ("use_cache", JValue.bool true), ("use_https", JValue.bool true)]) :=
  host_defaults_injected "scan1" "SECRET" 15 (by decide)

theorem vdict_error_head (er : VErr) (x : List VErr) (y : JDict)
    (e : List VErr × JDict) :
    (if ((er :: x, y).1 ++ e.1).isEmpty = true
      then Except.ok (JValue.obj ((er :: x, y).2 ++ e.2))
      else Except.error ((er :: x, y).1 ++ e.1))
      = Except.error (er :: (x ++ e.1)) := by
  simp

/-- C8: validating with the `Host` schema an object that sets `host` to
`"scan1"` and omits `api_key` fails, and the violation list names the
missing `api_key` key, whatever else the object contains. -/
theorem host_missing_api_key_reported (o : JDict)
    (hhost : lookupKey o "host" = some (JValue.str "scan1"))
    (hak : lookupKey o "api_key" = none) :
    ∃ es, validate Host (JValue.obj o) = Except.error es ∧
      VErr.missingKey "api_key" ∈ es := by
  have hak2 : lookupKey (o.filter fun kv => !List.contains ["default"] kv.1)
      "api_key" = none :=
    lookupKey_filter_none o _ "api_key" hak
  simp only [validate, validateJ, Host]
  rw [validateFields_missing_head "api_key" _ _ _ _ _ hak2
    (by simp [lookupKey]) (by simp)]
  rw [vdict_error_head]
  exact ⟨_, rfl, List.mem_cons_self _ _⟩

/-- Witness for C8: the missing key is reported on the concrete record
`{host: "scan1", timeout: 15.0}`. -/
theorem host_missing_api_key_reported_witness :
    ∃ es, validate Host
        (JValue.obj [("host", JValue.str "scan1"), ("timeout", JValue.num 15)])
      = Except.error es ∧ VErr.missingKey "api_key" ∈ es :=
  host_missing_api_key_reported
    [("host", JValue.str "scan1"), ("timeout", JValue.num 15)]
    (by simp [lookupKey]) (by simp [lookupKey])

/-- A hostname-safe string is nonempty, newline-free, and therefore
matches `RESERVED_KEYS_PATTERN` exactly when it does not start with a
reserved key. -/
theorem reserved_pattern_of_host_safe (s : String)
    (h : hostPatternMatches s = true) :
    RESERVED_KEYS_PATTERN s = !startsWithReserved s := by
  rw [hostPatternMatches, Bool.and_eq_true] at h
  rw [RESERVED_KEYS_PATTERN, h.1]
  have hall : (reBody s).all (fun c => c ≠ '\n') = true := by
    rw [List.all_eq_true] at h ⊢
    intro c hc
    have := h.2 c hc
    simp only [decide_eq_true_eq] at this ⊢
    intro hcc
    subst hcc
    simp at this
  rw [hall]
  simp

/-- C9 counterexample: `"hostsbis"` is hostname-safe and equals no
reserved top-level key, yet configuration validation rejects it as a
host name, because `RESERVED_KEYS_PATTERN` excludes every name that
merely STARTS with a reserved key. -/
theorem reserved_host_names_counterexample :
    (hostPatternMatches "hostsbis" = true ∧
      "hostsbis" ≠ "becmd" ∧ "hostsbis" ≠ "hosts" ∧ "hostsbis" ≠ "logging") ∧
    validate ConfigHost
      (JValue.obj [("hostsbis", JValue.obj [("timeout", JValue.num 15)])])
      = Except.error [VErr.invalidValue "hostsbis"] := by
  refine ⟨⟨by decide, by decide, by decide, by decide⟩, ?_⟩
  have h1 : RESERVED_KEYS_PATTERN "hostsbis" = false := by decide
  simp [validate, validateJ, validateExtras, validateFields, ConfigHost, HostOpt,
    lookupKey, StrPattern.matches, h1]

/-- C9 (amended): configuration validation rejects any host-name key,
and any value of the `default` host reference, that STARTS with a
reserved top-level key — in particular every name equal to one, since
each reserved key starts with itself — and accepts every hostname-safe
name that does not start with a reserved key. -/
theorem reserved_host_names_rejected :
    (∀ name ∈ CONFIG_RESERVED_KEYS, startsWithReserved name = true) ∧
    (∀ name : String, hostPatternMatches name = true →
      startsWithReserved name = false →
      validate ConfigHost
        (JValue.obj [(name, JValue.obj [("timeout", JValue.num 15)])])
        = Except.ok (JValue.obj [(name, JValue.obj
            [("insecure_tls", JValue.bool false), ("timeout", JValue.num 15),
             ("use_cache", JValue.bool true), ("use_https", JValue.bool true)])])) ∧
    (∀ name : String, startsWithReserved name = true →
      validate ConfigHost
        (JValue.obj [(name, JValue.obj [("timeout", JValue.num 15)])])
        = Except.error [VErr.invalidValue name]) ∧
    (∀ name : String, hostPatternMatches name = true →
      startsWithReserved name = false →
      validate CommonHosts (JValue.obj [("default", JValue.str name)])
        = Except.ok (JValue.obj
            [("default", JValue.str name), ("insecure_tls", JValue.bool false),
             ("use_cache", JValue.bool true), ("use_https", JValue.bool true)])) ∧
    (∀ name : String, startsWithReserved name = true →
      validate CommonHosts (JValue.obj [("default", JValue.str name)])
        = Except.error [VErr.invalidValue "default"]) := by
  refine ⟨by decide, ?_, ?_, ?_, ?_⟩
  · intro name h1 h2
    have hp : RESERVED_KEYS_PATTERN name = true := by
      rw [reserved_pattern_of_host_safe name h1, h2]
      rfl
    simp [validate, validateJ, validateExtras, validateFields, ConfigHost,
      HostOpt, lookupKey, StrPattern.matches, hp]
  · intro name h2
    have hp : RESERVED_KEYS_PATTERN name = false := by
      simp [RESERVED_KEYS_PATTERN, h2]
    simp [validate, validateJ, validateExtras, validateFields, ConfigHost,
      HostOpt, lookupKey, StrPattern.matches, hp]
  · intro name h1 h2
    have hp : RESERVED_KEYS_PATTERN name = true := by
      rw [reserved_pattern_of_host_safe name h1, h2]
      rfl
    simp [validate, validateJ, validateExtras, validateFields, CommonHosts,
      lookupKey, StrPattern.matches, hp]
  · intro name h2
    have hp : RESERVED_KEYS_PATTERN name = false := by
      simp [RESERVED_KEYS_PATTERN, h2]
    simp [validate, validateJ, validateExtras, validateFields, CommonHosts,
      lookupKey, StrPattern.matches, hp]

/-- Witness for C9 (amended): `"scan1"` is accepted as a host name and
the reserved key `"hosts"` itself is rejected. -/
theorem reserved_host_names_rejected_witness :
    validate ConfigHost
      (JValue.obj [("scan1", JValue.obj [("timeout", JValue.num 15)])])
      = Except.ok (JValue.obj [("scan1", JValue.obj
          [("insecure_tls", JValue.bool false), ("timeout", JValue.num 15),
           ("use_cache", JValue.bool true), ("use_https", JValue.bool true)])]) ∧
    validate ConfigHost
      (JValue.obj [("hosts", JValue.obj [("timeout", JValue.num 15)])])
      = Except.error [VErr.invalidValue "hosts"] :=
  ⟨reserved_host_names_rejected.2.1 "scan1" (by decide) (by decide),
   reserved_host_names_rejected.2.2.1 "hosts" (by decide)⟩

/-- The `Endpoint` URL generator of becmd/api.py: a host configuration
dictionary, the primary/secondary/action selectors and the extra action
parameters.  Parameter values reaching the endpoint are command-line
strings, so they are embedded as strings. -/
structure Endpoint where
  host : JDict
  primary : Option String
  secondary : Option String
  action : Option String
  params : List (String × String)

/-- List of reserved query parameters (`Endpoint._RESERVED`,
becmd/api.py, line 57).  The source keeps them in a Python set; the
embedding fixes the alphabetical order for iteration. -/
def Endpoint.RESERVED : List String := ["action", "apikey", "primary", "secondary"]

/-- Path to the JSON API endpoint (`Endpoint.PATH`, becmd/api.py,
line 60). -/
def Endpoint.PATH : String := "/json.cgi"

/-- Embedding of `Endpoint.__setitem__` (becmd/api.py, lines 174-187):
adding an action parameter raises `KeyError` for a reserved name and
stores the value with dictionary semantics otherwise. -/
def Endpoint.setItem (e : Endpoint) (k : String) (v : String) :
    Except String Endpoint :=
  if k ∈ Endpoint.RESERVED then Except.error "reserved parameter name"
  else Except.ok { e with params := setKey e.params k v }

/-- Embedding of `Endpoint.__init__` (becmd/api.py, lines 63-79): the
fields are stored and every extra parameter is assigned through
`self[k] = v`, i.e. through `__setitem__`, in order. -/
def mkEndpoint (host : JDict) (primary secondary action : Option String)
    (params : List (String × String)) : Except String Endpoint :=
  params.foldlM (fun e kv => e.setItem kv.1 kv.2)
    { host := host, primary := primary, secondary := secondary,
      action := action, params := [] }

/-- Percent-encode one byte as `%XX` with uppercase hexadecimal digits,
as `urllib.parse.quote` does. -/
def hexByte (b : Nat) : String :=
  let digits := "0123456789ABCDEF".data
  String.mk [digits.getD (b / 16 % 16) '0', digits.getD (b % 16) '0']

/-- The UTF-8 bytes of one character. -/
def utf8Bytes (c : Char) : List Nat :=
  let n := c.toNat
  if n < 128 then [n]
  else if n < 2048 then [192 + n / 64, 128 + n % 64]
  else if n < 65536 then [224 + n / 4096, 128 + n / 64 % 64, 128 + n % 64]
  else [240 + n / 262144, 128 + n / 4096 % 64, 128 + n / 64 % 64, 128 + n % 64]

/-- `urllib.parse.quote_plus` with its default arguments, as used by
`urlencode`: ASCII letters, digits and `_.-~` stay, a space becomes `+`,
anything else is percent-encoded byte-wise. -/
def quotePlus (s : String) : String :=
  String.join (s.data.map (fun c =>
    if c.isAlphanum || c = '_' || c = '.' || c = '-' || c = '~' then String.mk [c]
    else if c = ' ' then "+"
    else String.join ((utf8Bytes c).map hexByte)))

/-- `urllib.parse.urlencode` on string pairs: quote keys and values and
join them with `&`. -/
def urlencode (q : List (String × String)) : String :=
  String.intercalate "&" (q.map (fun kv => quotePlus kv.1 ++ "=" ++ quotePlus kv.2))

/-- `urllib.parse.urlunparse` on the six URL components, following the
CPython composition rules. -/
def urlunparse (scheme netloc path par query fragment : String) : String :=
  let url0 := if par ≠ "" then path ++ ";" ++ par else path
  let url1 :=
    if netloc ≠ "" || (url0 ≠ "" && ['/', '/'].isPrefixOf url0.data) then
      (if url0 ≠ "" && !(['/'].isPrefixOf url0.data) then
        "//" ++ netloc ++ "/" ++ url0
      else "//" ++ netloc ++ url0)
    else url0
  let url2 := if scheme ≠ "" then scheme ++ ":" ++ url1 else url1
  let url3 := if query ≠ "" then url2 ++ "?" ++ query else url2
  if fragment ≠ "" then url3 ++ "#" ++ fragment else url3

/-- `urlunparse` on a six-component list. -/
def urlunparseL : List String → String
  | [scheme, netloc, path, par, query, fragment] =>
    urlunparse scheme netloc path par query fragment
  | _ => ""

/-- The scheme component yielded by `Endpoint.__iter__`: `https` exactly
when `self._host.get('use_https')` is truthy, else `http`. -/
def Endpoint.scheme (e : Endpoint) : String :=
  if (match lookupKey e.host "use_https" with
      | some v => v.truthy
      | none => false) then "https" else "http"

/-- The network location yielded by `Endpoint.__iter__`:
`self._host.get('host', '')`.  A non-string value would make the later
URL composition raise; host descriptors validated by the `Host` schema
always carry a string here, and the embedding restricts to that case. -/
def Endpoint.netloc (e : Endpoint) : String :=
  match lookupKey e.host "host" with
  | some (JValue.str s) => s
  | _ => ""

/-- One entry of the selector dictionary: `getattr(self, name, None)`
contributes `{name: value}` exactly when the value is truthy (a set,
non-empty string). -/
def selectorPair (name : String) (v : Option String) : List (String × String) :=
  match v with
  | some s => if s ≠ "" then [(name, s)] else []
  | none => []

/-- The selector dictionary `function` built by `Endpoint.__iter__`:
for each reserved name, `getattr(self, name, None)` when truthy.  The
class has no `apikey` attribute, so only `action`, `primary` and
`secondary` can contribute; Python iterates the `_RESERVED` set in an
unspecified order, fixed here alphabetically. -/
def Endpoint.selectors (e : Endpoint) : List (String × String) :=
  selectorPair "action" e.action ++ selectorPair "primary" e.primary ++
    selectorPair "secondary" e.secondary

/-- The query dictionary `{'apikey': ..., **function, **self._params}`
of `Endpoint.__iter__`, built with Python dictionary-union semantics:
later entries are assigned over the initial `apikey` binding. -/
def Endpoint.queryPairs (e : Endpoint) (akey : String) : List (String × String) :=
  (e.selectors ++ e.params).foldl (fun d kv => setKey d kv.1 kv.2) [("apikey", akey)]

/-- Embedding of `Endpoint.__iter__` (becmd/api.py, lines 82-123): the
six URL components.  `self._host['api_key']` raises `KeyError` when the
host has no `api_key`, embedded as `none`; the embedding restricts to
string-valued keys (`urlencode` renders everything through `str`). -/
def Endpoint.urlComponents (e : Endpoint) : Option (List String) :=
  match lookupKey e.host "api_key" with
  | some (JValue.str akey) =>
    some [e.scheme, e.netloc, Endpoint.PATH, "",
      urlencode (e.queryPairs akey), ""]
  | _ => none

/-- Embedding of `Endpoint.__str__` (becmd/api.py, lines 137-145):
`urllib.parse.urlunparse` over the component iterator. -/
def Endpoint.toUrl (e : Endpoint) : Option String :=
  (e.urlComponents).map urlunparseL

/-- Embedding of the response unwrapping of `Endpoint.fetch`
(becmd/api.py, lines 208-230).  The network call itself is the external
collaborator `becmd.net.get`; `decodeCompressed` stands for the external
codec `zlib.decompress(base64.b64decode(...))` applied to the
`compresseddata` value. -/
def fetchUnwrap (decodeCompressed : JValue → JValue) (data : JDict) : JValue :=
  match lookupKey data "data" with
  | some v => v
  | none =>
    match lookupKey data "result" with
    | some v => v
    | none =>
      match lookupKey data "compresseddata" with
      | some v => decodeCompressed v
      | none => JValue.obj data

/-- C7: for every JSON response mapping, `fetch` unwraps the body by the
exact fallback chain `data`, then `result`, then the decoded and
decompressed `compresseddata`, and returns the raw response unchanged
when none of the three keys is present. -/
theorem fetch_unwrap_fallback_chain (dec : JValue → JValue) (resp : JDict) :
    (∀ v, lookupKey resp "data" = some v → fetchUnwrap dec resp = v) ∧
    (lookupKey resp "data" = none →
      ∀ v, lookupKey resp "result" = some v → fetchUnwrap dec resp = v) ∧
    (lookupKey resp "data" = none → lookupKey resp "result" = none →
      ∀ v, lookupKey resp "compresseddata" = some v →
        fetchUnwrap dec resp = dec v) ∧
    (lookupKey resp "data" = none → lookupKey resp "result" = none →
      lookupKey resp "compresseddata" = none →
      fetchUnwrap dec resp = JValue.obj resp) := by
  refine ⟨?_, ?_, ?_, ?_⟩
  · intro v hv
    rw [fetchUnwrap, hv]
  · intro h1 v hv
    rw [fetchUnwrap, h1, hv]
  · intro h1 h2 v hv
    rw [fetchUnwrap, h1, h2, hv]
  · intro h1 h2 h3
    rw [fetchUnwrap, h1, h2, h3]

/-- Witness for C7: all four branches of the chain on concrete
responses; the raw response survives untouched when no known key is
present. -/
theorem fetch_unwrap_fallback_chain_witness :
    fetchUnwrap id [("data", JValue.num 1), ("result", JValue.num 2)] = JValue.num 1 ∧
    fetchUnwrap id [("result", JValue.num 2)] = JValue.num 2 ∧
    fetchUnwrap (fun _ => JValue.str "decoded") [("compresseddata", JValue.str "x")]
      = JValue.str "decoded" ∧
    fetchUnwrap id [("status", JValue.str "ok")]
      = JValue.obj [("status", JValue.str "ok")] :=
  ⟨(fetch_unwrap_fallback_chain id
      [("data", JValue.num 1), ("result", JValue.num 2)]).1
      (JValue.num 1) (by simp [lookupKey]),
   (fetch_unwrap_fallback_chain id [("result", JValue.num 2)]).2.1
      (by simp [lookupKey]) (JValue.num 2) (by simp [lookupKey]),
   (fetch_unwrap_fallback_chain (fun _ => JValue.str "decoded")
      [("compresseddata", JValue.str "x")]).2.2.1
      (by simp [lookupKey]) (by simp [lookupKey])
      (JValue.str "x") (by simp [lookupKey]),
   (fetch_unwrap_fallback_chain id [("status", JValue.str "ok")]).2.2.2
      (by simp [lookupKey]) (by simp [lookupKey]) (by simp [lookupKey])⟩

theorem except_bind_ok {e a b : Type} (x : a) (f : a → Except e b) :
    (Except.ok x >>= f) = f x := rfl

theorem except_bind_error {e a b : Type} (msg : e) (f : a → Except e b) :
    ((Except.error msg : Except e a) >>= f) = Except.error msg := rfl

theorem mkEndpoint_go_error :
    ∀ (params : List (String × String)) (e0 : Endpoint),
    (∃ kv ∈ params, kv.1 ∈ Endpoint.RESERVED) →
    ∃ msg, params.foldlM (fun e kv => Endpoint.setItem e kv.1 kv.2) e0
      = Except.error msg
  | [], _, hex => by simp at hex
  | (k, v) :: rest, e0, hex => by
    by_cases hk : k ∈ Endpoint.RESERVED
    · refine ⟨"reserved parameter name", ?_⟩
      simp [List.foldlM, Endpoint.setItem, hk, except_bind_error]
    · have hex2 : ∃ kv ∈ rest, kv.1 ∈ Endpoint.RESERVED := by
        rcases hex with ⟨kv, hkv, hres⟩
        rcases List.mem_cons.1 hkv with rfl | hkv2
        · exact absurd hres hk
        · exact ⟨kv, hkv2, hres⟩
      obtain ⟨msg, hmsg⟩ := mkEndpoint_go_error rest
        { e0 with params := setKey e0.params k v } hex2
      refine ⟨msg, ?_⟩
      simp [List.foldlM, Endpoint.setItem, hk, except_bind_ok]
      exact hmsg

theorem mkEndpoint_go_ok :
    ∀ (params : List (String × String)) (e0 : Endpoint),
    (∀ kv ∈ params, kv.1 ∉ Endpoint.RESERVED) →
    ∃ e, params.foldlM (fun e kv => Endpoint.setItem e kv.1 kv.2) e0
      = Except.ok e
  | [], e0, _ => ⟨e0, rfl⟩
  | (k, v) :: rest, e0, hall => by
    have hk : k ∉ Endpoint.RESERVED := hall (k, v) (by simp)
    obtain ⟨e, he⟩ := mkEndpoint_go_ok rest
      { e0 with params := setKey e0.params k v }
      (fun kv hkv => hall kv (by simp [hkv]))
    refine ⟨e, ?_⟩
    simp [List.foldlM, Endpoint.setItem, hk, except_bind_ok]
    exact he

/-- C6: adding a parameter under a reserved name (`action`, `apikey`,
`primary`, `secondary`) raises immediately, both at construction time
(the constructor assigns every extra parameter through `__setitem__`
before anything else can run — neither `__init__` nor `__setitem__`
touches the network) and on later item assignment; any key outside the
reserved set is accepted.  In particular construction with a parameter
key `apikey` fails. -/
theorem endpoint_reserved_params_rejected :
    (∀ (e : Endpoint) (k v : String), k ∈ Endpoint.RESERVED →
      Endpoint.setItem e k v = Except.error "reserved parameter name") ∧
    (∀ (e : Endpoint) (k v : String), k ∉ Endpoint.RESERVED →
      Endpoint.setItem e k v
        = Except.ok { e with params := setKey e.params k v }) ∧
    (∀ (host : JDict) (p s a : Option String)
        (params : List (String × String)),
      (∃ kv ∈ params, kv.1 ∈ Endpoint.RESERVED) →
      ∃ msg, mkEndpoint host p s a params = Except.error msg) ∧
    (∀ (host : JDict) (p s a : Option String)
        (params : List (String × String)),
      (∀ kv ∈ params, kv.1 ∉ Endpoint.RESERVED) →
      ∃ e, mkEndpoint host p s a params = Except.ok e) ∧
    mkEndpoint [("host", JValue.str "scan1")] (some "scan") none none
      [("apikey", "boom")] = Except.error "reserved parameter name" := by
  refine ⟨?_, ?_, ?_, ?_, ?_⟩
  · intro e k v hk
    simp [Endpoint.setItem, hk]
  · intro e k v hk
    simp [Endpoint.setItem, hk]
  · intro host p s a params hex
    exact mkEndpoint_go_error params _ hex
  · intro host p s a params hall
    exact mkEndpoint_go_ok params _ hall
  · simp [mkEndpoint, List.foldlM, Endpoint.setItem, Endpoint.RESERVED]

/-- Witness for C6: a reserved assignment fails, a plain one succeeds,
and the two construction shapes behave as stated on concrete inputs. -/
theorem endpoint_reserved_params_rejected_witness :
    Endpoint.setItem ⟨[], some "scan", none, none, []⟩ "apikey" "x"
      = Except.error "reserved parameter name" ∧
    Endpoint.setItem ⟨[], some "scan", none, none, []⟩ "target-id" "5"
      = Except.ok ⟨[], some "scan", none, none, [("target-id", "5")]⟩ ∧
    (∃ msg, mkEndpoint [] (some "scan") none none [("apikey", "x")]
      = Except.error msg) ∧
    (∃ e, mkEndpoint [] (some "scan") none none [("target-id", "5")]
      = Except.ok e) :=
  ⟨endpoint_reserved_params_rejected.1 _ "apikey" "x" (by decide),
   endpoint_reserved_params_rejected.2.1 _ "target-id" "5" (by decide),
   endpoint_reserved_params_rejected.2.2.1 [] (some "scan") none none
     [("apikey", "x")] ⟨("apikey", "x"), by simp, by decide⟩,
   endpoint_reserved_params_rejected.2.2.2.1 [] (some "scan") none none
     [("target-id", "5")]
     (by intro kv hkv; rcases List.mem_cons.1 hkv with rfl | h
         · decide
         · simp at h)⟩

theorem lookupKey_of_mem_nodup {α : Type} (l : List (String × α)) (k : String)
    (v : α) (hnd : (keysOf l).Nodup) (hmem : (k, v) ∈ l) :
    lookupKey l k = some v := by
  induction l with
  | nil => simp at hmem
  | cons kv rest ih =>
    obtain ⟨k1, v1⟩ := kv
    simp [keysOf] at hnd
    rcases List.mem_cons.1 hmem with heq | hmem2
    · rw [Prod.ext_iff] at heq
      obtain ⟨h1, h2⟩ := heq
      simp at h1 h2
      subst h1
      subst h2
      simp [lookupKey]
    · have hk1 : ¬k1 = k := by
        intro hh
        subst hh
        exact hnd.1 v hmem2
      simp [lookupKey, hk1, ih hnd.2 hmem2]

theorem lookupKey_append {α : Type} (a b : List (String × α)) (k : String) :
    lookupKey (a ++ b) k
      = match lookupKey a k with
        | some v => some v
        | none => lookupKey b k := by
  induction a with
  | nil => simp [lookupKey]
  | cons kv rest ih =>
    obtain ⟨k1, v1⟩ := kv
    by_cases h1 : k1 = k <;> simp [lookupKey, h1, ih]

theorem keysOf_setKey {α : Type} (m : List (String × α)) (k : String) (v : α) :
    keysOf (setKey m k v)
      = if k ∈ keysOf m then keysOf m else keysOf m ++ [k] := by
  induction m with
  | nil => simp [setKey, keysOf]
  | cons kv rest ih =>
    obtain ⟨k1, v1⟩ := kv
    by_cases h1 : k1 = k
    · subst h1
      simp [setKey, keysOf]
    · have h2 : ¬k = k1 := fun hh => h1 hh.symm
      simp only [keysOf] at ih ⊢
      by_cases hmem : k ∈ List.map Prod.fst rest <;>
        simp [setKey, h1, h2, hmem, ih]

theorem mem_setKey {α : Type} (m : List (String × α)) (k : String) (v : α) :
    ∀ kv ∈ setKey m k v, kv ∈ m ∨ kv = (k, v) := by
  induction m with
  | nil =>
    intro kv h
    simp [setKey] at h
    simp [h]
  | cons kv1 rest ih =>
    obtain ⟨k1, v1⟩ := kv1
    intro kv h
    by_cases h1 : k1 = k
    · subst h1
      simp [setKey] at h
      rcases h with rfl | hm
      · exact Or.inr rfl
      · exact Or.inl (by simp [hm])
    · simp [setKey, h1] at h
      rcases h with rfl | hm
      · exact Or.inl (by simp)
      · rcases ih kv hm with hl | hr
        · exact Or.inl (by simp [hl])
        · exact Or.inr hr

theorem foldl_setKey_eq_append {α : Type} :
    ∀ (l d : List (String × α)), (keysOf l).Nodup →
    (∀ k ∈ keysOf l, k ∉ keysOf d) →
    l.foldl (fun dd kv => setKey dd kv.1 kv.2) d = d ++ l
  | [], d, _, _ => by simp
  | (k, v) :: rest, d, hnd, hdisj => by
    have hk : k ∉ keysOf d := hdisj k (by simp [keysOf])
    have hnd2 : (keysOf rest).Nodup := by
      simp [keysOf] at hnd
      exact hnd.2
    have hknotrest : k ∉ keysOf rest := by
      simp [keysOf] at hnd ⊢
      exact fun x hx => hnd.1 x hx
    have hdisj2 : ∀ k2 ∈ keysOf rest, k2 ∉ keysOf (d ++ [(k, v)]) := by
      intro k2 hk2
      have hk2d : k2 ∉ keysOf d := hdisj k2 (by simp [keysOf] at hk2 ⊢; exact Or.inr hk2)
      have hk2k : k2 ≠ k := by
        intro hh
        subst hh
        exact hknotrest hk2
      simp [keysOf] at hk2d ⊢
      exact ⟨fun x hx => hk2d x hx, hk2k⟩
    show List.foldl _ (setKey d k v) rest = _
    rw [setKey_eq_append d k v hk,
      foldl_setKey_eq_append rest (d ++ [(k, v)]) hnd2 hdisj2]
    simp

theorem selectorPair_keys (n : String) (v : Option String) :
    ∀ k ∈ keysOf (selectorPair n v), k = n := by
  intro k hk
  cases v with
  | none => simp [selectorPair, keysOf] at hk
  | some s =>
    by_cases hs : s = ""
    · simp [selectorPair, keysOf, hs] at hk
    · simp [selectorPair, keysOf, hs] at hk
      exact hk

theorem selectorPair_nodup (n : String) (v : Option String) :
    (keysOf (selectorPair n v)).Nodup := by
  cases v with
  | none => simp [selectorPair, keysOf]
  | some s =>
    by_cases hs : s = "" <;> simp [selectorPair, keysOf, hs]

theorem keysOf_append {α : Type} (a b : List (String × α)) :
    keysOf (a ++ b) = keysOf a ++ keysOf b := by
  simp [keysOf]

theorem selectors_keys (e : Endpoint) :
    ∀ k ∈ keysOf e.selectors,
      k = "action" ∨ k = "primary" ∨ k = "secondary" := by
  intro k hk
  rw [Endpoint.selectors, keysOf_append, keysOf_append] at hk
  rcases List.mem_append.1 hk with hab | hc
  · rcases List.mem_append.1 hab with ha | hb
    · exact Or.inl (selectorPair_keys "action" e.action k ha)
    · exact Or.inr (Or.inl (selectorPair_keys "primary" e.primary k hb))
  · exact Or.inr (Or.inr (selectorPair_keys "secondary" e.secondary k hc))

theorem selectors_nodup (e : Endpoint) : (keysOf e.selectors).Nodup := by
  rw [Endpoint.selectors, keysOf_append, keysOf_append]
  refine List.Nodup.append
    (List.Nodup.append (selectorPair_nodup "action" e.action)
      (selectorPair_nodup "primary" e.primary) ?_)
    (selectorPair_nodup "secondary" e.secondary) ?_
  · intro x hx hx2
    have h1 := selectorPair_keys "action" e.action x hx
    have h2 := selectorPair_keys "primary" e.primary x hx2
    subst h1
    simp at h2
  · intro x hx hx2
    have h2 := selectorPair_keys "secondary" e.secondary x hx2
    subst h2
    rcases List.mem_append.1 hx with h | h
    · have := selectorPair_keys "action" e.action _ h
      simp at this
    · have := selectorPair_keys "primary" e.primary _ h
      simp at this

theorem mkEndpoint_go_ok_inv :
    ∀ (params : List (String × String)) (e0 e : Endpoint),
    params.foldlM (fun e kv => Endpoint.setItem e kv.1 kv.2) e0 = Except.ok e →
    (e.host = e0.host ∧ e.primary = e0.primary ∧ e.secondary = e0.secondary ∧
      e.action = e0.action) ∧
    ((keysOf e0.params).Nodup → (keysOf e.params).Nodup) ∧
    ((∀ kv ∈ e0.params, kv.1 ∉ Endpoint.RESERVED) →
      ∀ kv ∈ e.params, kv.1 ∉ Endpoint.RESERVED)
  | [], e0, e, h => by
    simp only [List.foldlM] at h
    have h2 : e0 = e := by
      have h3 : (Except.ok e0 : Except String Endpoint) = Except.ok e := h
      injection h3
    subst h2
    exact ⟨⟨rfl, rfl, rfl, rfl⟩, id, id⟩
  | (k, v) :: rest, e0, e, h => by
    by_cases hk : k ∈ Endpoint.RESERVED
    · simp [List.foldlM, Endpoint.setItem, hk, except_bind_error] at h
    · simp only [List.foldlM, Endpoint.setItem, if_neg hk, except_bind_ok] at h
      have hIH := mkEndpoint_go_ok_inv rest _ e h
      refine ⟨hIH.1, ?_, ?_⟩
      · intro hnd
        apply hIH.2.1
        show (keysOf (setKey e0.params k v)).Nodup
        rw [keysOf_setKey]
        by_cases hmem : k ∈ keysOf e0.params
        · simp [hmem, hnd]
        · simp only [hmem, if_false]
          exact List.Nodup.append hnd (List.nodup_singleton k)
            (by intro x hx hx2; simp at hx2; subst hx2; exact hmem hx)
      · intro hres
        apply hIH.2.2
        intro kv2 hkv2
        rcases mem_setKey e0.params k v kv2 hkv2 with hm | hm
        · exact hres kv2 hm
        · rw [hm]
          exact hk

/-- C5: a successfully constructed `Endpoint` serialises to the six URL
components with `https` exactly when `use_https` is set (else `http`),
the host field as network location, the fixed path `/json.cgi`, empty
params and fragment components, and a query string that URL-encodes the
union of the fixed `apikey` entry, the set selectors among
`action`/`primary`/`secondary`, and the extra parameters; the extra
parameters never override the fixed `apikey`/`action`/`primary`/
`secondary` entries, because no parameter may carry a reserved name. -/
theorem endpoint_url_structure :
    ∀ (host : JDict) (p s a : Option String)
      (params : List (String × String)) (e : Endpoint) (akey : String),
    mkEndpoint host p s a params = Except.ok e →
    lookupKey host "api_key" = some (JValue.str akey) →
    e.urlComponents = some
      [e.scheme, e.netloc, "/json.cgi", "",
       urlencode ([("apikey", akey)] ++ e.selectors ++ e.params), ""] ∧
    e.scheme = (if (match lookupKey host "use_https" with
                    | some v => v.truthy
                    | none => false) then "https" else "http") ∧
    e.netloc = (match lookupKey host "host" with
                | some (JValue.str h2) => h2
                | _ => "") ∧
    e.toUrl = some (urlunparseL
      [e.scheme, e.netloc, "/json.cgi", "",
       urlencode ([("apikey", akey)] ++ e.selectors ++ e.params), ""]) ∧
    lookupKey (e.queryPairs akey) "apikey" = some akey ∧
    (∀ k v2, (k, v2) ∈ e.selectors → lookupKey (e.queryPairs akey) k = some v2) ∧
    (∀ kv ∈ e.params, kv.1 ∉ Endpoint.RESERVED ∧
      lookupKey (e.queryPairs akey) kv.1 = some kv.2) := by
  intro host p s a params e akey hmk hak
  have hinv := mkEndpoint_go_ok_inv params
    { host := host, primary := p, secondary := s, action := a, params := [] }
    e hmk
  have hhost : e.host = host := hinv.1.1
  have hnodup : (keysOf e.params).Nodup := hinv.2.1 (by simp [keysOf])
  have hres : ∀ kv ∈ e.params, kv.1 ∉ Endpoint.RESERVED :=
    hinv.2.2 (by simp)
  have hselres : ∀ k ∈ keysOf e.selectors, k ∈ Endpoint.RESERVED := by
    intro k hk
    rcases selectors_keys e k hk with rfl | rfl | rfl <;> decide
  have hparamsres : ∀ k ∈ keysOf e.params, k ∉ Endpoint.RESERVED := by
    intro k hk
    simp only [keysOf, List.mem_map] at hk
    obtain ⟨kv, hkv, rfl⟩ := hk
    exact hres kv hkv
  have hdisjoint : ∀ k ∈ keysOf (e.selectors ++ e.params),
      k ∉ keysOf [(("apikey" : String), akey)] := by
    intro k hk
    simp only [keysOf, List.map_append, List.mem_append] at hk
    have hne : k ≠ "apikey" := by
      rcases hk with h | h
      · rcases selectors_keys e k h with rfl | rfl | rfl <;> decide
      · intro hh
        subst hh
        exact hparamsres "apikey" h (by decide)
    simp [keysOf, hne]
  have hcatnodup : (keysOf (e.selectors ++ e.params)).Nodup := by
    simp only [keysOf, List.map_append]
    refine List.Nodup.append (selectors_nodup e) hnodup ?_
    intro x hx hx2
    exact hparamsres x hx2 (hselres x hx)
  have hq : e.queryPairs akey = [("apikey", akey)] ++ e.selectors ++ e.params := by
    rw [Endpoint.queryPairs,
      foldl_setKey_eq_append (e.selectors ++ e.params)
        [("apikey", akey)] hcatnodup hdisjoint]
    simp
  have hq2 : e.queryPairs akey = ("apikey", akey) :: (e.selectors ++ e.params) := by
    rw [hq]
    simp
  have hcomp : e.urlComponents = some
      [e.scheme, e.netloc, "/json.cgi", "",
       urlencode ([("apikey", akey)] ++ e.selectors ++ e.params), ""] := by
    rw [Endpoint.urlComponents, hhost, hak, ← hq]
    rfl
  refine ⟨hcomp, ?_, ?_, ?_, ?_, ?_, ?_⟩
  · rw [Endpoint.scheme, hhost]
  · rw [Endpoint.netloc, hhost]
  · rw [Endpoint.toUrl, hcomp]
    rfl
  · rw [hq2]
    simp [lookupKey]
  · intro k v2 hmem
    have hk : k ∈ keysOf e.selectors := by
      simp only [keysOf, List.mem_map]
      exact ⟨(k, v2), hmem, rfl⟩
    have hkne : k ≠ "apikey" := by
      rcases selectors_keys e k hk with rfl | rfl | rfl <;> decide
    rw [hq2]
    have h2 : ¬("apikey" : String) = k := fun hh => hkne hh.symm
    simp only [lookupKey, if_neg h2]
    rw [lookupKey_append,
      lookupKey_of_mem_nodup e.selectors k v2 (selectors_nodup e) hmem]
  · intro kv hmem
    refine ⟨hres kv hmem, ?_⟩
    have hk : kv.1 ∈ keysOf e.params := by
      simp only [keysOf, List.mem_map]
      exact ⟨kv, hmem, rfl⟩
    have hkres : kv.1 ∉ Endpoint.RESERVED := hres kv hmem
    have hkne : ¬("apikey" : String) = kv.1 := by
      intro hh
      exact hkres (by rw [← hh]; decide)
    have hksel : lookupKey e.selectors kv.1 = none := by
      apply lookupKey_eq_none_of_not_mem
      intro hc
      exact hkres (hselres kv.1 hc)
    rw [hq2]
    simp only [lookupKey, if_neg hkne]
    rw [lookupKey_append, hksel,
      lookupKey_of_mem_nodup e.params kv.1 kv.2 hnodup (by simpa using hmem)]

/-- Witness for C5: the URL components of a concrete endpoint for host
`scan1` over HTTPS, with the selectors `action=list`, `primary=scan`
and one extra parameter. -/
theorem endpoint_url_structure_witness :
    Endpoint.urlComponents
      ⟨[("host", JValue.str "scan1"), ("api_key", JValue.str "KEY"),
        ("use_https", JValue.bool true)], some "scan", none, some "list",
        [("target-id", "5")]⟩
      = some ["https", "scan1", "/json.cgi", "",
          urlencode [("apikey", "KEY"), ("action", "list"), ("primary", "scan"),
            ("target-id", "5")], ""] := by
  have h := (endpoint_url_structure
    [("host", JValue.str "scan1"), ("api_key", JValue.str "KEY"),
      ("use_https", JValue.bool true)]
    (some "scan") none (some "list") [("target-id", "5")]
    ⟨[("host", JValue.str "scan1"), ("api_key", JValue.str "KEY"),
      ("use_https", JValue.bool true)], some "scan", none, some "list",
      [("target-id", "5")]⟩
    "KEY"
    (by simp [mkEndpoint, List.foldlM, Endpoint.setItem, Endpoint.RESERVED,
      setKey, except_bind_ok])
    (by simp [lookupKey])).1
  rw [h]
  simp [Endpoint.scheme, Endpoint.netloc, Endpoint.selectors, selectorPair,
    lookupKey, JValue.truthy]

/-- Is this value the embedding of Python `None`? -/
def JValue.isNull : JValue → Bool
  | JValue.null => true
  | _ => false

/-- Embedding of `becmd.__main__.parse_args` (becmd/__main__.py, lines
133-172) after the argparse pass: the parsed namespace is a flat
dictionary from destination names to values (argparse binds `None` to
every option the user did not supply, unless a default overrides it);
the `None` entries are dropped and the dotted keys are expanded.  The
strict and known-args modes differ only in how the namespace is
obtained. -/
def parse_args (ns : JDict) : Option JDict :=
  mapping_expand '.' (ns.filter (fun kv => !kv.2.isNull))

theorem leafPaths_sub_mid (m1 m2 : JDict) (k : String) (w : JValue) :
    ∀ pv, pv ∈ leafPaths m1 ∨ pv ∈ leafPaths m2 →
      pv ∈ leafPaths (m1 ++ (k, w) :: m2) := by
  intro pv h
  rw [leafPaths_append]
  rcases h with h | h
  · exact List.mem_append.2 (Or.inl h)
  · refine List.mem_append.2 (Or.inr ?_)
    by_cases hw : w.isObj = true
    · obtain ⟨o, rfl⟩ := jvalue_obj_of_isObj w hw
      rw [leafPaths_cons_obj]
      exact List.mem_append.2 (Or.inr h)
    · rw [leafPaths_cons_nonobj _ _ _ (by simpa using hw)]
      exact List.mem_cons.2 (Or.inr h)

/-- Every leaf value of an expanded dictionary is either an old leaf
value or the inserted value: insertion of a non-mapping value preserves
any property of the leaf values. -/
theorem insertPath_preserves (P : JValue → Prop) :
    ∀ (p : List String) (t : JDict) (v : JValue) (t2 : JDict),
    insertPath t p v = some t2 → v.isObj = false → P v →
    (∀ pv ∈ leafPaths t, P pv.2) → ∀ pv ∈ leafPaths t2, P pv.2
  | [], t, v, t2, h, _, _, _ => by simp [insertPath] at h
  | [last], t, v, t2, h, hv, hPv, hall => by
    simp only [insertPath, Option.some_inj] at h
    subst h
    cases hl : lookupKey t last with
    | none =>
      have hnm : last ∉ keysOf t := (lookupKey_eq_none_iff t last).1 hl
      rw [setKey_eq_append t last v hnm, leafPaths_append,
        leafPaths_cons_nonobj _ _ _ hv]
      intro pv hpv
      rcases List.mem_append.1 hpv with hL | hR
      · exact hall pv hL
      · rcases List.mem_cons.1 hR with rfl | hc
        · exact hPv
        · simp [leafPaths] at hc
    | some w =>
      obtain ⟨m1, m2, rfl, hnm1, hset⟩ := lookupKey_some_split t last w hl
      rw [hset v, leafPaths_append, leafPaths_cons_nonobj _ _ _ hv]
      intro pv hpv
      rcases List.mem_append.1 hpv with hL | hR
      · exact hall pv (leafPaths_sub_mid m1 m2 last w pv (Or.inl hL))
      · rcases List.mem_cons.1 hR with rfl | hc
        · exact hPv
        · exact hall pv (leafPaths_sub_mid m1 m2 last w pv (Or.inr hc))
  | p0 :: q0 :: rest, t, v, t2, h, hv, hPv, hall => by
    rw [insertPath] at h
    cases hl : lookupKey t p0 with
    | none =>
      rw [hl, insertPath_nil (q0 :: rest) v (by simp)] at h
      have h2 : setKey t p0 (JValue.obj (freshTrie (q0 :: rest) v)) = t2 :=
        Option.some.inj h
      subst h2
      have hnm : p0 ∉ keysOf t := (lookupKey_eq_none_iff t p0).1 hl
      rw [setKey_eq_append t p0 _ hnm, leafPaths_append, leafPaths_cons_obj,
        leafPaths_freshTrie (q0 :: rest) v hv (by simp)]
      intro pv hpv
      rcases List.mem_append.1 hpv with hL | hR
      · exact hall pv hL
      · simp only [List.map_cons, List.map_nil, List.append_nil, leafPaths,
          List.mem_cons] at hR
        rcases hR with rfl | hc
        · exact hPv
        · simp [leafPaths] at hc
    | some w =>
      rw [hl] at h
      by_cases hwobj : w.isObj = true
      · obtain ⟨sub, rfl⟩ := jvalue_obj_of_isObj w hwobj
        have h2 : Option.map (fun sub2 => setKey t p0 (JValue.obj sub2))
            (insertPath sub (q0 :: rest) v) = some t2 := h
        cases hins : insertPath sub (q0 :: rest) v with
        | none => rw [hins] at h2; simp at h2
        | some sub2 =>
          rw [hins] at h2
          have h3 : setKey t p0 (JValue.obj sub2) = t2 := Option.some.inj h2
          subst h3
          have hsub : ∀ pv ∈ leafPaths sub, P pv.2 := by
            intro pv hpv
            exact hall (p0 :: pv.1, pv.2)
              (mem_leafPaths_of_lookup_obj t p0 sub pv.1 pv.2 hl
                (by simpa using hpv))
          have hsub2 := insertPath_preserves P (q0 :: rest) sub v sub2
            hins hv hPv hsub
          obtain ⟨m1, m2, rfl, hnm1, hset⟩ :=
            lookupKey_some_split t p0 (JValue.obj sub) hl
          rw [hset (JValue.obj sub2), leafPaths_append, leafPaths_cons_obj]
          intro pv hpv
          rcases List.mem_append.1 hpv with hL | hR
          · exact hall pv (leafPaths_sub_mid m1 m2 p0 (JValue.obj sub) pv (Or.inl hL))
          · rcases List.mem_append.1 hR with hM | hr2
            · obtain ⟨qv, hqv, rfl⟩ := List.mem_map.1 hM
              exact hsub2 qv hqv
            · exact hall pv
                (leafPaths_sub_mid m1 m2 p0 (JValue.obj sub) pv (Or.inr hr2))
      · cases w with
        | obj o => simp [JValue.isObj] at hwobj
        | null => exact Option.noConfusion h
        | bool b => exact Option.noConfusion h
        | str s2 => exact Option.noConfusion h
        | num q => exact Option.noConfusion h
        | arr xs => exact Option.noConfusion h

/-- Keys added by one insertion: the head segment of the inserted path. -/
theorem insertPath_keys :
    ∀ (p : List String) (t : JDict) (v : JValue) (t2 : JDict),
    insertPath t p v = some t2 →
    ∀ k ∈ keysOf t2, k ∈ keysOf t ∨ p.head? = some k
  | [], t, v, t2, h => by simp [insertPath] at h
  | [last], t, v, t2, h => by
    simp only [insertPath, Option.some_inj] at h
    subst h
    intro k hk
    rw [keysOf_setKey] at hk
    by_cases hmem : last ∈ keysOf t
    · rw [if_pos hmem] at hk
      exact Or.inl hk
    · rw [if_neg hmem] at hk
      rcases List.mem_append.1 hk with h1 | h1
      · exact Or.inl h1
      · simp at h1
        simp [h1]
  | p0 :: q0 :: rest, t, v, t2, h => by
    rw [insertPath] at h
    have hset : ∀ sub2 : JDict, t2 = setKey t p0 (JValue.obj sub2) →
        ∀ k ∈ keysOf t2, k ∈ keysOf t ∨ (p0 :: q0 :: rest).head? = some k := by
      intro sub2 ht2 k hk
      subst ht2
      rw [keysOf_setKey] at hk
      by_cases hmem : p0 ∈ keysOf t
      · rw [if_pos hmem] at hk
        exact Or.inl hk
      · rw [if_neg hmem] at hk
        rcases List.mem_append.1 hk with h1 | h1
        · exact Or.inl h1
        · simp at h1
          simp [h1]
    cases hl : lookupKey t p0 with
    | none =>
      rw [hl, insertPath_nil (q0 :: rest) v (by simp)] at h
      exact hset _ (Option.some.inj h).symm
    | some w =>
      rw [hl] at h
      cases w with
      | obj sub =>
        have h2 : Option.map (fun sub2 => setKey t p0 (JValue.obj sub2))
            (insertPath sub (q0 :: rest) v) = some t2 := h
        cases hins : insertPath sub (q0 :: rest) v with
        | none => rw [hins] at h2; simp at h2
        | some sub2 =>
          rw [hins] at h2
          exact hset _ (Option.some.inj h2).symm
      | null => exact Option.noConfusion h
      | bool b => exact Option.noConfusion h
      | str s => exact Option.noConfusion h
      | num q => exact Option.noConfusion h
      | arr xs => exact Option.noConfusion h

/-- Insertion keeps the top-level keys free of duplicates. -/
theorem insertPath_nodup :
    ∀ (p : List String) (t : JDict) (v : JValue) (t2 : JDict),
    insertPath t p v = some t2 → (keysOf t).Nodup → (keysOf t2).Nodup
  | [], t, v, t2, h, _ => by simp [insertPath] at h
  | [last], t, v, t2, h, hnd => by
    have hsetKey : ∀ (w : JValue), t2 = setKey t last w → (keysOf t2).Nodup := by
      intro w ht2
      subst ht2
      rw [keysOf_setKey]
      by_cases hmem : last ∈ keysOf t
      · rw [if_pos hmem]
        exact hnd
      · rw [if_neg hmem]
        exact List.Nodup.append hnd (List.nodup_singleton last)
          (by intro x hx hx2; simp at hx2; subst hx2; exact hmem hx)
    simp only [insertPath, Option.some_inj] at h
    exact hsetKey v h.symm
  | p0 :: q0 :: rest, t, v, t2, h, hnd => by
    have hsetKey : ∀ (w : JValue), t2 = setKey t p0 w → (keysOf t2).Nodup := by
      intro w ht2
      subst ht2
      rw [keysOf_setKey]
      by_cases hmem : p0 ∈ keysOf t
      · rw [if_pos hmem]
        exact hnd
      · rw [if_neg hmem]
        exact List.Nodup.append hnd (List.nodup_singleton p0)
          (by intro x hx hx2; simp at hx2; subst hx2; exact hmem hx)
    rw [insertPath] at h
    cases hl : lookupKey t p0 with
    | none =>
      rw [hl] at h
      have h2 : Option.map (fun sub => setKey t p0 (JValue.obj sub))
          (insertPath [] (q0 :: rest) v) = some t2 := h
      cases hins : insertPath [] (q0 :: rest) v with
      | none => rw [hins] at h2; simp at h2
      | some sub =>
        rw [hins] at h2
        exact hsetKey (JValue.obj sub) (Option.some.inj h2).symm
    | some w =>
      rw [hl] at h
      cases w with
      | obj sub =>
        have h2 : Option.map (fun sub2 => setKey t p0 (JValue.obj sub2))
            (insertPath sub (q0 :: rest) v) = some t2 := h
        cases hins : insertPath sub (q0 :: rest) v with
        | none => rw [hins] at h2; simp at h2
        | some sub2 =>
          rw [hins] at h2
          exact hsetKey (JValue.obj sub2) (Option.some.inj h2).symm
      | null => exact Option.noConfusion h
      | bool b => exact Option.noConfusion h
      | str s => exact Option.noConfusion h
      | num q => exact Option.noConfusion h
      | arr xs => exact Option.noConfusion h

theorem expandGo_preserves (P : JValue → Prop) (sep : Char) :
    ∀ (m t : JDict),
    (∀ kv ∈ m, (kv.2 : JValue).isObj = false ∧ P kv.2) →
    (∀ pv ∈ leafPaths t, P pv.2) →
    ∀ r, expandGo sep t m = some r → ∀ pv ∈ leafPaths r, P pv.2
  | [], t, _, hall, r, h => by
    simp only [expandGo, Option.some_inj] at h
    subst h
    exact hall
  | (k, v) :: rest, t, hm, hall, r, h => by
    rw [expandGo] at h
    cases hins : insertPath t (splitKey sep k) v with
    | none => rw [hins] at h; simp at h
    | some t2 =>
      rw [hins] at h
      have hkv := hm (k, v) (by simp)
      exact expandGo_preserves P sep rest t2
        (fun kv2 hkv2 => hm kv2 (by simp [hkv2]))
        (insertPath_preserves P (splitKey sep k) t v t2 hins hkv.1 hkv.2 hall)
        r h

theorem expandGo_keys (sep : Char) :
    ∀ (m t : JDict) (r : JDict), expandGo sep t m = some r →
    ∀ k ∈ keysOf r, k ∈ keysOf t ∨
      ∃ kv ∈ m, (splitKey sep kv.1).head? = some k
  | [], t, r, h => by
    simp only [expandGo, Option.some_inj] at h
    subst h
    intro k hk
    exact Or.inl hk
  | (k0, v) :: rest, t, r, h => by
    rw [expandGo] at h
    cases hins : insertPath t (splitKey sep k0) v with
    | none => rw [hins] at h; simp at h
    | some t2 =>
      rw [hins] at h
      intro k hk
      rcases expandGo_keys sep rest t2 r h k hk with h1 | ⟨kv, hkv, hh⟩
      · rcases insertPath_keys (splitKey sep k0) t v t2 hins k h1 with h2 | h2
        · exact Or.inl h2
        · exact Or.inr ⟨(k0, v), by simp, h2⟩
      · exact Or.inr ⟨kv, by simp [hkv], hh⟩

theorem expandGo_nodup (sep : Char) :
    ∀ (m t : JDict) (r : JDict), expandGo sep t m = some r →
    (keysOf t).Nodup → (keysOf r).Nodup
  | [], t, r, h, hnd => by
    simp only [expandGo, Option.some_inj] at h
    subst h
    exact hnd
  | (k0, v) :: rest, t, r, h, hnd => by
    rw [expandGo] at h
    cases hins : insertPath t (splitKey sep k0) v with
    | none => rw [hins] at h; simp at h
    | some t2 =>
      rw [hins] at h
      exact expandGo_nodup sep rest t2 r h
        (insertPath_nodup (splitKey sep k0) t v t2 hins hnd)

/-- C10: `parse_args` removes every option bound to `None` before
expanding the dotted destination keys, so the nested options mapping it
returns has no `None` leaf; a command-line flag the user did not supply
(whose argparse default is `None`) contributes no top-level key, and
the subsequent deep merge leaves the configuration-file value of any
key that no supplied option reaches unchanged. -/
theorem parse_args_drops_none :
    ∀ (ns r : JDict),
    (∀ kv ∈ ns, (kv.2 : JValue).isObj = false) →
    parse_args ns = some r →
    (∀ pv ∈ leafPaths r, (pv.2 : JValue).isNull = false) ∧
    (keysOf r).Nodup ∧
    (∀ k ∈ keysOf r, ∃ kv ∈ ns, kv.2.isNull = false ∧
      (splitKey '.' kv.1).head? = some k) ∧
    (∀ (cfg merged : JDict) (k : String),
      mapping_update cfg r = some merged →
      (∀ kv ∈ ns, kv.2.isNull = false → (splitKey '.' kv.1).head? ≠ some k) →
      lookupKey merged k = lookupKey cfg k) := by
  intro ns r hobj h
  rw [parse_args, mapping_expand] at h
  have hmem : ∀ kv ∈ ns.filter (fun kv => !kv.2.isNull),
      kv ∈ ns ∧ kv.2.isNull = false := by
    intro kv hkv
    have := List.mem_filter.1 hkv
    exact ⟨this.1, by simpa using this.2⟩
  have hkeys := expandGo_keys '.' (ns.filter (fun kv => !kv.2.isNull)) [] r h
  have hprov : ∀ k ∈ keysOf r, ∃ kv ∈ ns, kv.2.isNull = false ∧
      (splitKey '.' kv.1).head? = some k := by
    intro k hk
    rcases hkeys k hk with h1 | ⟨kv, hkv, hh⟩
    · simp [keysOf] at h1
    · exact ⟨kv, (hmem kv hkv).1, (hmem kv hkv).2, hh⟩
  refine ⟨?_, ?_, hprov, ?_⟩
  · exact expandGo_preserves (fun v => v.isNull = false) '.'
      (ns.filter (fun kv => !kv.2.isNull)) []
      (fun kv hkv => ⟨hobj kv (hmem kv hkv).1, (hmem kv hkv).2⟩)
      (by simp [leafPaths]) r h
  · exact expandGo_nodup '.' (ns.filter (fun kv => !kv.2.isNull)) [] r h
      (by simp [keysOf])
  · intro cfg merged k hupd hnone
    have hknotin : k ∉ keysOf r := by
      intro hk
      obtain ⟨kv, hkv, hnn, hh⟩ := hprov k hk
      exact hnone kv hkv hnn hh
    have hrk : lookupKey r k = none := lookupKey_eq_none_of_not_mem r k hknotin
    have hnd : (keysOf r).Nodup :=
      expandGo_nodup '.' (ns.filter (fun kv => !kv.2.isNull)) [] r h
        (by simp [keysOf])
    exact (mapping_update_lookup r hnd cfg merged hupd k).1 hrk

/-- Witness for C10: the unset flags of a concrete first-pass namespace
(everything `None` except the host) are dropped, and the merge leaves an
untouched configuration section alone. -/
theorem parse_args_drops_none_witness :
    (keysOf [("hosts", JValue.obj [("default", JValue.str "scan1")])]).Nodup :=
  (parse_args_drops_none
    [("hosts.default", JValue.str "scan1"), ("hosts.api_key", JValue.null),
      ("config", JValue.null)]
    [("hosts", JValue.obj [("default", JValue.str "scan1")])]
    (by
      intro kv hkv
      rcases List.mem_cons.1 hkv with rfl | hkv
      · rfl
      · rcases List.mem_cons.1 hkv with rfl | hkv
        · rfl
        · rcases List.mem_cons.1 hkv with rfl | hkv
          · rfl
          · simp at hkv)
    (by simp [parse_args, mapping_expand, expandGo, insertPath, splitKey,
      lookupKey, setKey, JValue.isNull])).2.1

/-- List of interface keys to ignore while parsing (becmd/api.py,
line 33). -/
def INTERFACE_PRIMARY_IGNORE : List String := ["examples", "filters"]

/-- One option added with `add_argument`: the long flag, the namespace
destination, and the argparse default. -/
structure ArgOption where
  flag : String
  dest : String
  default : JValue
  deriving Repr

/-- A command line parser as argparse builds it here: its options, the
flags registered with a version action, the destination of its
subparsers (when `add_subparsers` was called) and the named
subparsers. -/
inductive Cmd where
  | mk (opts : List ArgOption) (versionFlags : List String)
      (subDest : Option String) (subs : List (String × Cmd))

def Cmd.opts : Cmd → List ArgOption
  | Cmd.mk o _ _ _ => o

def Cmd.versionFlags : Cmd → List String
  | Cmd.mk _ vf _ _ => vf

def Cmd.subDest : Cmd → Option String
  | Cmd.mk _ _ d _ => d

def Cmd.subs : Cmd → List (String × Cmd)
  | Cmd.mk _ _ _ ss => ss

/-- `i_name.replace('_', '-')`: every underscore becomes a dash. -/
def dashOf (s : String) : String :=
  String.mk (s.data.map (fun c => if c = '_' then '-' else c))

/-- Insertion into a list sorted by a string key, after equal keys. -/
def insertSortedBy {α : Type} (key : α → String) (a : α) :
    List α → List α
  | [] => [a]
  | b :: rest =>
    if key b ≤ key a then b :: insertSortedBy key a rest
    else a :: b :: rest

/-- `sorted(..., key=...)` by a string key (stable; the keys at hand are
dictionary keys, hence unique). -/
def sortBy {α : Type} (key : α → String) (l : List α) : List α :=
  l.foldl (fun acc x => insertSortedBy key x acc) []

/-- The string elements of an interface `functions` list.  The
embedding covers interface descriptions whose `functions` entries are
lists of strings, the only shape the remote description uses. -/
def strList : List JValue → Option (List String)
  | [] => some []
  | JValue.str s :: rest => (strList rest).map (fun l => s :: l)
  | _ => none

/-- `sorted(definition.get('functions', []))`. -/
def sortedFnNames (defn : JDict) : Option (List String) :=
  match lookupKey defn "functions" with
  | none => some []
  | some (JValue.arr xs) => (strList xs).map (sortBy id)
  | some _ => none

/-- The argparse default of one declared input parameter:
`i_desc.get('default')`, `None` when absent. -/
def descDefault : JValue → JValue
  | JValue.obj d => (lookupKey d "default").getD JValue.null
  | _ => JValue.null

/-- The options added for the declared input parameters of one action:
`--dashed-name` with destination `api.params.dashed-name` and the
declared default.  A non-mapping input description makes Python raise,
embedded as `none`. -/
def optionsOfInput : JDict → Option (List ArgOption)
  | [] => some []
  | (i_name, JValue.obj d) :: rest =>
    (optionsOfInput rest).map (fun os =>
      { flag := "--" ++ dashOf i_name, dest := "api.params." ++ dashOf i_name,
        default := (lookupKey d "default").getD JValue.null } :: os)
  | _ => none

/-- The fresh sub-parser built for one action: one option per entry of
`a_def.get('input', {})`. -/
def actionParser (a_def : JDict) : Option Cmd :=
  match lookupKey a_def "input" with
  | none => some (Cmd.mk [] [] none [])
  | some (JValue.obj input) =>
    (optionsOfInput input).map (fun os => Cmd.mk os [] none [])
  | some _ => none

/-- The loop of `argparser_from_actions` over the sorted function
names: a name whose definition entry is missing or falsy is skipped; a
truthy entry must be a mapping (Python would raise otherwise) and
becomes one sub-parser. -/
def actionsLoop (defn : JDict) : List String → Option (List (String × Cmd))
  | [] => some []
  | name :: rest =>
    match lookupKey defn name with
    | none => actionsLoop defn rest
    | some v =>
      if v.truthy then
        match v with
        | JValue.obj a_def =>
          (actionParser a_def).bind (fun c =>
            (actionsLoop defn rest).map (fun cs => (name, c) :: cs))
        | _ => none
      else actionsLoop defn rest

/-- Embedding of `becmd.api.argparser_from_actions` (becmd/api.py,
lines 247-281): attach an `action` subparser level (destination
`api.action`) holding one sub-parser per sorted declared function name
that has a truthy definition entry. -/
def argparser_from_actions (parser : Cmd) (defn : JDict) : Option Cmd :=
  (sortedFnNames defn).bind (fun names =>
    (actionsLoop defn names).map (fun cs =>
      Cmd.mk parser.opts parser.versionFlags (some "api.action")
        (parser.subs ++ cs)))

/-- The loop of `argparser_from_interface` over the sorted secondary
entries: every item becomes a secondary sub-parser whose actions come
from `argparser_from_actions`; a non-mapping definition makes
`s_def.get('description', '')` raise. -/
def secondariesLoop : List (String × JValue) → Option (List (String × Cmd))
  | [] => some []
  | (s_name, JValue.obj sd) :: rest =>
    (argparser_from_actions (Cmd.mk [] [] none []) sd).bind (fun c =>
      (secondariesLoop rest).map (fun cs => (s_name, c) :: cs))
  | _ => none

/-- The loop of `argparser_from_interface` over the sorted primary
entries, threading the parser under construction. -/
def interfaceLoop : List (String × JValue) → Cmd → Option Cmd
  | [], parser => some parser
  | (p_name, secondaries) :: rest, parser =>
    if INTERFACE_PRIMARY_IGNORE.contains p_name then
      interfaceLoop rest parser
    else if p_name = "version" then
      match secondaries with
      | JValue.obj _ =>
        interfaceLoop rest (Cmd.mk parser.opts
          (parser.versionFlags ++ ["--api-version"]) parser.subDest
          parser.subs)
      | _ => none
    else
      match secondaries with
      | JValue.obj sec =>
        if (match lookupKey sec "functions" with
            | some v => v.truthy
            | none => false) then
          (argparser_from_actions (Cmd.mk [] [] none []) sec).bind
            (fun pc => interfaceLoop rest (Cmd.mk parser.opts
              parser.versionFlags parser.subDest
              (parser.subs ++ [(p_name, pc)])))
        else
          (secondariesLoop (sortBy Prod.fst sec)).bind (fun cs =>
            interfaceLoop rest (Cmd.mk parser.opts parser.versionFlags
              parser.subDest
              (parser.subs ++ [(p_name, Cmd.mk [] [] (some "api.secondary") cs)])))
      | _ => none

/-- Embedding of `becmd.api.argparser_from_interface` (becmd/api.py,
lines 284-333): attach a `primary` subparser level (destination
`api.primary`) and walk the interface items sorted by name; `examples`
and `filters` are skipped, `version` turns into an `--api-version`
version flag, a primary with a truthy `functions` entry becomes a leaf
through `argparser_from_actions`, and any other primary gets a
`secondary` subparser level.  A non-mapping interface has no
`.items()`, so Python raises, embedded as `none`. -/
def argparser_from_interface (parser : Cmd) (interface : JValue) : Option Cmd :=
  match interface with
  | JValue.obj items =>
    interfaceLoop (sortBy Prod.fst items)
      (Cmd.mk parser.opts parser.versionFlags (some "api.primary") parser.subs)
  | _ => none

/-- A small model of the argparse dispatch on the parsers generated
here: a `--` token must match one of the current options exactly and
consumes the following token as its value; any other token selects a
subparser and parsing continues there; everything else is rejected.
(Abbreviated long options and `--flag=value` syntax are not used by the
claims and are left out.) -/
def accepts : Cmd → List String → Bool
  | _, [] => true
  | c, tok :: rest =>
    if "--".data.isPrefixOf tok.data then
      if c.opts.any (fun o => o.flag = tok) then
        match rest with
        | [] => false
        | _ :: rest2 => accepts c rest2
      else false
    else
      match lookupKey c.subs tok with
      | some sub => accepts sub rest
      | none => false

theorem insertSortedBy_perm {α : Type} (key : α → String) (a : α) :
    ∀ l : List α, (insertSortedBy key a l).Perm (a :: l)
  | [] => List.Perm.refl _
  | b :: rest => by
    rw [insertSortedBy]
    by_cases h : key b ≤ key a
    · rw [if_pos h]
      exact ((insertSortedBy_perm key a rest).cons b).trans
        (List.Perm.swap a b rest)
    · rw [if_neg h]

theorem sortBy_go_perm {α : Type} (key : α → String) :
    ∀ (l acc : List α),
      (l.foldl (fun acc x => insertSortedBy key x acc) acc).Perm (acc ++ l)
  | [], acc => by simp
  | x :: rest, acc => by
    refine (sortBy_go_perm key rest (insertSortedBy key x acc)).trans ?_
    refine (List.Perm.append_right rest (insertSortedBy_perm key x acc)).trans ?_
    exact List.perm_middle.symm

theorem sortBy_perm {α : Type} (key : α → String) (l : List α) :
    (sortBy key l).Perm l := by
  simpa using sortBy_go_perm key l []

theorem optionsOfInput_spec : ∀ input : JDict,
    (∀ kv ∈ input, ∃ d, (kv.2 : JValue) = JValue.obj d) →
    optionsOfInput input = some (input.map (fun kv =>
      ArgOption.mk ("--" ++ dashOf kv.1) ("api.params." ++ dashOf kv.1)
        (descDefault kv.2)))
  | [], _ => rfl
  | (i, v) :: rest, hall => by
    obtain ⟨d, rfl⟩ := hall (i, v) (by simp)
    rw [optionsOfInput,
      optionsOfInput_spec rest (fun kv hkv => hall kv (by simp [hkv]))]
    simp [descDefault]

theorem actionsLoop_spec (defn : JDict) :
    ∀ (names : List String) (cs : List (String × Cmd)),
    actionsLoop defn names = some cs →
    keysOf cs = names.filter (fun n =>
      (match lookupKey defn n with
        | some v => v.truthy
        | none => false)) ∧
    (∀ name, name ∈ names → names.Nodup →
      ∀ v, lookupKey defn name = some v → v.truthy = true →
      ∃ a_def ac, v = JValue.obj a_def ∧ actionParser a_def = some ac ∧
        lookupKey cs name = some ac)
  | [], cs, h => by
    simp only [actionsLoop, Option.some_inj] at h
    subst h
    exact ⟨rfl, by intro name hn; simp at hn⟩
  | name0 :: rest, cs, h => by
    rw [actionsLoop] at h
    cases hl : lookupKey defn name0 with
    | none =>
      rw [hl] at h
      simp only [] at h
      obtain ⟨hkeys, hlook⟩ := actionsLoop_spec defn rest cs h
      constructor
      · rw [hkeys, List.filter_cons, hl]
        simp
      · intro name hn hnd v hv htr
        rcases List.mem_cons.1 hn with rfl | hn2
        · rw [hv] at hl
          exact Option.noConfusion hl
        · exact hlook name hn2 (List.Nodup.of_cons hnd) v hv htr
    | some v0 =>
      rw [hl] at h
      simp only [] at h
      by_cases htr0 : v0.truthy = true
      · rw [if_pos htr0] at h
        cases v0 with
        | obj a_def =>
          simp only [] at h
          cases hap : actionParser a_def with
          | none => rw [hap] at h; exact Option.noConfusion h
          | some ac0 =>
            rw [hap] at h
            cases hrest : actionsLoop defn rest with
            | none => rw [hrest] at h; exact Option.noConfusion h
            | some cs2 =>
              rw [hrest] at h
              have h3 : (name0, ac0) :: cs2 = cs := Option.some.inj h
              subst h3
              obtain ⟨hkeys, hlook⟩ := actionsLoop_spec defn rest cs2 hrest
              constructor
              · rw [List.filter_cons, hl]
                simp only [keysOf, List.map_cons] at hkeys ⊢
                simp [htr0, hkeys]
              · intro name hn hnd v hv htr
                rcases List.mem_cons.1 hn with rfl | hn2
                · rw [hl] at hv
                  have hv2 := Option.some.inj hv
                  refine ⟨a_def, ac0, hv2.symm, hap, ?_⟩
                  simp [lookupKey]
                · have hne : ¬name0 = name := by
                    intro hh
                    subst hh
                    simp at hnd
                    exact hnd.1 hn2
                  obtain ⟨a_def2, ac2, hv2, hap2, hlk⟩ :=
                    hlook name hn2 (List.Nodup.of_cons hnd) v hv htr
                  exact ⟨a_def2, ac2, hv2, hap2, by simp [lookupKey, hne, hlk]⟩
        | null => simp [JValue.truthy] at htr0
        | bool b => exact Option.noConfusion h
        | str s => exact Option.noConfusion h
        | num q => exact Option.noConfusion h
        | arr xs => exact Option.noConfusion h
      · rw [if_neg htr0] at h
        obtain ⟨hkeys, hlook⟩ := actionsLoop_spec defn rest cs h
        constructor
        · rw [hkeys, List.filter_cons, hl]
          have htr2 : v0.truthy = false := by simpa using htr0
          simp [htr2]
        · intro name hn hnd v hv htr
          rcases List.mem_cons.1 hn with rfl | hn2
          · rw [hl] at hv
            rw [Option.some.inj hv] at htr0
            exact absurd htr htr0
          · exact hlook name hn2 (List.Nodup.of_cons hnd) v hv htr

theorem interfaceLoop_spec :
    ∀ (items : List (String × JValue)) (parser cmd : Cmd),
    interfaceLoop items parser = some cmd →
    cmd.opts = parser.opts ∧ cmd.subDest = parser.subDest ∧
    ∃ added, cmd.subs = parser.subs ++ added ∧
      keysOf added = (items.map Prod.fst).filter
        (fun n => !(INTERFACE_PRIMARY_IGNORE.contains n || n == "version")) ∧
      (∀ p_name sec, (p_name, JValue.obj sec) ∈ items →
        (items.map Prod.fst).Nodup →
        INTERFACE_PRIMARY_IGNORE.contains p_name = false →
        ¬p_name = "version" →
        (match lookupKey sec "functions" with
          | some v => v.truthy
          | none => false) = true →
        ∃ pc, lookupKey added p_name = some pc ∧
          argparser_from_actions (Cmd.mk [] [] none []) sec = some pc)
  | [], parser, cmd, h => by
    rw [interfaceLoop] at h
    have h2 : parser = cmd := Option.some.inj h
    subst h2
    exact ⟨rfl, rfl, [], by simp, rfl, by intro p s hmem; simp at hmem⟩
  | (p_name0, sec0) :: rest, parser, cmd, h => by
    rw [interfaceLoop.eq_def] at h
    simp only [] at h
    by_cases hig : INTERFACE_PRIMARY_IGNORE.contains p_name0 = true
    · rw [if_pos hig] at h
      obtain ⟨ho, hd, added, hsubs, hkeys, hlook⟩ :=
        interfaceLoop_spec rest parser cmd h
      refine ⟨ho, hd, added, hsubs, ?_, ?_⟩
      · rw [hkeys, List.map_cons, List.filter_cons]
        have hmem0 : p_name0 ∈ INTERFACE_PRIMARY_IGNORE := by simpa using hig
        simp [hmem0]
      · intro p_name sec hmem hnd hniq hnv htr
        rcases List.mem_cons.1 hmem with heq | hmem2
        · have hpp : p_name = p_name0 := congrArg Prod.fst heq
          rw [hpp, hig] at hniq
          exact Bool.noConfusion hniq
        · simp only [List.map_cons] at hnd
          exact hlook p_name sec hmem2 (List.Nodup.of_cons hnd) hniq hnv htr
    · rw [if_neg hig] at h
      by_cases hv : p_name0 = "version"
      · rw [if_pos hv] at h
        cases sec0 with
        | obj s0 =>
          simp only [] at h
          obtain ⟨ho, hd, added, hsubs, hkeys, hlook⟩ :=
            interfaceLoop_spec rest _ cmd h
          refine ⟨by simpa [Cmd.opts] using ho,
            by simpa [Cmd.subDest] using hd, added,
            by simpa [Cmd.subs] using hsubs, ?_, ?_⟩
          · rw [hkeys, List.map_cons, List.filter_cons]
            simp [hv]
          · intro p_name sec hmem hnd hniq hnv htr
            rcases List.mem_cons.1 hmem with heq | hmem2
            · have hpp : p_name = p_name0 := congrArg Prod.fst heq
              rw [hpp, hv] at hnv
              exact absurd rfl hnv
            · simp only [List.map_cons] at hnd
              exact hlook p_name sec hmem2 (List.Nodup.of_cons hnd) hniq hnv htr
        | null => exact Option.noConfusion h
        | bool b => exact Option.noConfusion h
        | str s => exact Option.noConfusion h
        | num q => exact Option.noConfusion h
        | arr xs => exact Option.noConfusion h
      · rw [if_neg hv] at h
        cases sec0 with
        | obj sec =>
          simp only [] at h
          by_cases hfn : (match lookupKey sec "functions" with
              | some v => v.truthy
              | none => false) = true
          · rw [if_pos hfn] at h
            cases hap : argparser_from_actions (Cmd.mk [] [] none []) sec with
            | none => rw [hap] at h; exact Option.noConfusion h
            | some pc =>
              rw [hap, Option.some_bind] at h
              obtain ⟨ho, hd, added, hsubs, hkeys, hlook⟩ :=
                interfaceLoop_spec rest _ cmd h
              refine ⟨by simpa [Cmd.opts] using ho,
                by simpa [Cmd.subDest] using hd, (p_name0, pc) :: added, ?_, ?_, ?_⟩
              · have hsubs2 : cmd.subs = (parser.subs ++ [(p_name0, pc)]) ++ added :=
                  hsubs
                rw [hsubs2, List.append_assoc]
                rfl
              · rw [List.map_cons, List.filter_cons]
                have hv2 : (p_name0 == "version") = false := by
                  simpa using hv
                have hmemn : p_name0 ∉ INTERFACE_PRIMARY_IGNORE := by
                  simpa using hig
                simp [hmemn, hv2, keysOf]
                simpa using hkeys
              · intro p_name sec2 hmem hnd hniq hnv htr
                rcases List.mem_cons.1 hmem with heq | hmem2
                · have hpp : p_name = p_name0 := congrArg Prod.fst heq
                  have hss : JValue.obj sec2 = JValue.obj sec :=
                    congrArg Prod.snd heq
                  have hss2 : sec2 = sec := by injection hss
                  subst hss2
                  refine ⟨pc, ?_, hap⟩
                  simp [lookupKey, hpp]
                · simp only [List.map_cons] at hnd
                  have hne : ¬p_name0 = p_name := by
                    intro hh
                    subst hh
                    exact (List.nodup_cons.1 hnd).1
                      (List.mem_map_of_mem Prod.fst hmem2)
                  obtain ⟨pc2, hlk, hap2⟩ := hlook p_name sec2 hmem2
                    (List.Nodup.of_cons hnd) hniq hnv htr
                  exact ⟨pc2, by simp [lookupKey, hne, hlk], hap2⟩
          · rw [if_neg hfn] at h
            cases hsl : secondariesLoop (sortBy Prod.fst sec) with
            | none => rw [hsl] at h; exact Option.noConfusion h
            | some cs =>
              rw [hsl, Option.some_bind] at h
              obtain ⟨ho, hd, added, hsubs, hkeys, hlook⟩ :=
                interfaceLoop_spec rest _ cmd h
              refine ⟨by simpa [Cmd.opts] using ho,
                by simpa [Cmd.subDest] using hd,
                (p_name0, Cmd.mk [] [] (some "api.secondary") cs) :: added,
                ?_, ?_, ?_⟩
              · have hsubs2 : cmd.subs =
                    (parser.subs ++ [(p_name0, Cmd.mk [] [] (some "api.secondary") cs)])
                      ++ added :=
                  hsubs
                rw [hsubs2, List.append_assoc]
                rfl
              · rw [List.map_cons, List.filter_cons]
                have hv2 : (p_name0 == "version") = false := by
                  simpa using hv
                have hmemn : p_name0 ∉ INTERFACE_PRIMARY_IGNORE := by
                  simpa using hig
                simp [hmemn, hv2, keysOf]
                simpa using hkeys
              · intro p_name sec2 hmem hnd hniq hnv htr
                rcases List.mem_cons.1 hmem with heq | hmem2
                · have hpp : p_name = p_name0 := congrArg Prod.fst heq
                  have hss : JValue.obj sec2 = JValue.obj sec :=
                    congrArg Prod.snd heq
                  have hss2 : sec2 = sec := by injection hss
                  subst hss2
                  exact absurd htr hfn
                · simp only [List.map_cons] at hnd
                  have hne : ¬p_name0 = p_name := by
                    intro hh
                    subst hh
                    exact (List.nodup_cons.1 hnd).1
                      (List.mem_map_of_mem Prod.fst hmem2)
                  obtain ⟨pc2, hlk, hap2⟩ := hlook p_name sec2 hmem2
                    (List.Nodup.of_cons hnd) hniq hnv htr
                  exact ⟨pc2, by simp [lookupKey, hne, hlk], hap2⟩
        | null => exact Option.noConfusion h
        | bool b => exact Option.noConfusion h
        | str s => exact Option.noConfusion h
        | num q => exact Option.noConfusion h
        | arr xs => exact Option.noConfusion h

theorem argparser_from_actions_spec (parser : Cmd) (defn : JDict) (cmd2 : Cmd)
    (h : argparser_from_actions parser defn = some cmd2) :
    ∃ names cs, sortedFnNames defn = some names ∧
      actionsLoop defn names = some cs ∧
      cmd2 = Cmd.mk parser.opts parser.versionFlags (some "api.action")
        (parser.subs ++ cs) := by
  rw [argparser_from_actions] at h
  cases hn : sortedFnNames defn with
  | none => rw [hn] at h; exact Option.noConfusion h
  | some names =>
    rw [hn] at h
    simp only [Option.some_bind] at h
    cases hc : actionsLoop defn names with
    | none => rw [hc] at h; exact Option.noConfusion h
    | some cs =>
      rw [hc] at h
      exact ⟨names, cs, rfl, hc, (Option.some.inj h).symm⟩

/-- C1 counterexample: for the interface `\x7b"scan": \x7b"functions":
["list"]\x7d\x7d` the primary `scan` declares the function name `list`,
but `list` has no definition entry in the mapping, so
`argparser_from_actions` skips it (`if not a_def: continue` in
becmd/api.py line 268) and the generated leaf has no sub-subcommand at
all: `scan list` is rejected.  The claim promises one sub-subcommand
per sorted declared function name, which would accept it. -/
theorem argparser_skips_undefined_functions :
    argparser_from_interface (Cmd.mk [] [] none [])
        (JValue.obj [("scan", JValue.obj
          [("functions", JValue.arr [JValue.str "list"])])])
      = some (Cmd.mk [] [] (some "api.primary")
          [("scan", Cmd.mk [] [] (some "api.action") [])]) ∧
    accepts (Cmd.mk [] [] (some "api.primary")
        [("scan", Cmd.mk [] [] (some "api.action") [])])
      ["scan", "list"] = false :=
  ⟨rfl, by decide⟩

/-- C1 (amended): `argparser_from_interface` extends the parser with a
two-level subcommand tree: the primary names are processed in sorted
order with `examples` and `filters` excluded and `version` turned into
a version flag rather than a subcommand; each remaining primary with a
truthy `functions` entry becomes a leaf through
`argparser_from_actions`, which adds one sub-subcommand per sorted
declared function name whose definition entry is present and truthy
(missing or falsy entries are skipped); each sub-subcommand accepts
exactly one `--dashed-name` flag per declared input parameter
(underscores replaced by dashes) whose default is the input declared
default; in particular the parser generated for the interface of the
claim accepts `scan list --target-id 5` and rejects
`scan list --bogus-flag`. -/
theorem argparser_from_interface_tree :
    (∀ (parser : Cmd) (items : List (String × JValue)) (cmd : Cmd),
      argparser_from_interface parser (JValue.obj items) = some cmd →
      (items.map Prod.fst).Nodup →
      cmd.opts = parser.opts ∧ cmd.subDest = some "api.primary" ∧
      ∃ added, cmd.subs = parser.subs ++ added ∧
        keysOf added = ((sortBy Prod.fst items).map Prod.fst).filter
          (fun n => !(INTERFACE_PRIMARY_IGNORE.contains n || n == "version")) ∧
        (∀ p_name sec, (p_name, JValue.obj sec) ∈ items →
          INTERFACE_PRIMARY_IGNORE.contains p_name = false →
          ¬p_name = "version" →
          (match lookupKey sec "functions" with
            | some v => v.truthy
            | none => false) = true →
          ∃ pc, lookupKey added p_name = some pc ∧
            argparser_from_actions (Cmd.mk [] [] none []) sec = some pc)) ∧
    (∀ (parser : Cmd) (defn : JDict) (cmd2 : Cmd),
      argparser_from_actions parser defn = some cmd2 →
      cmd2.opts = parser.opts ∧ cmd2.subDest = some "api.action" ∧
      ∃ names cs, sortedFnNames defn = some names ∧
        cmd2.subs = parser.subs ++ cs ∧
        keysOf cs = names.filter (fun n =>
          (match lookupKey defn n with
            | some v => v.truthy
            | none => false)) ∧
        (∀ name, name ∈ names → names.Nodup →
          ∀ a_def, lookupKey defn name = some (JValue.obj a_def) →
          (JValue.obj a_def).truthy = true →
          ∃ ac, actionParser a_def = some ac ∧ lookupKey cs name = some ac)) ∧
    (∀ (a_def input : JDict),
      lookupKey a_def "input" = some (JValue.obj input) →
      (∀ kv ∈ input, ∃ d, (kv.2 : JValue) = JValue.obj d) →
      actionParser a_def = some (Cmd.mk (input.map (fun kv =>
        ArgOption.mk ("--" ++ dashOf kv.1) ("api.params." ++ dashOf kv.1)
          (descDefault kv.2))) [] none [])) ∧
    argparser_from_interface (Cmd.mk [] [] none [])
        (JValue.obj [("scan", JValue.obj
          [("functions", JValue.arr [JValue.str "list"]),
           ("list", JValue.obj [("input", JValue.obj
             [("target_id", JValue.obj [("default", JValue.str "0")])])])])])
      = some (Cmd.mk [] [] (some "api.primary")
          [("scan", Cmd.mk [] [] (some "api.action")
            [("list", Cmd.mk [ArgOption.mk "--target-id" "api.params.target-id"
                (JValue.str "0")] [] none [])])]) ∧
    accepts (Cmd.mk [] [] (some "api.primary")
        [("scan", Cmd.mk [] [] (some "api.action")
          [("list", Cmd.mk [ArgOption.mk "--target-id" "api.params.target-id"
              (JValue.str "0")] [] none [])])])
      ["scan", "list", "--target-id", "5"] = true ∧
    accepts (Cmd.mk [] [] (some "api.primary")
        [("scan", Cmd.mk [] [] (some "api.action")
          [("list", Cmd.mk [ArgOption.mk "--target-id" "api.params.target-id"
              (JValue.str "0")] [] none [])])])
      ["scan", "list", "--bogus-flag"] = false := by
  refine ⟨?_, ?_, ?_, rfl, by decide, by decide⟩
  · intro parser items cmd h hnd
    rw [argparser_from_interface] at h
    obtain ⟨ho, hd, added, hsubs, hkeys, hlook⟩ :=
      interfaceLoop_spec (sortBy Prod.fst items)
        (Cmd.mk parser.opts parser.versionFlags (some "api.primary") parser.subs)
        cmd h
    refine ⟨ho, hd, added, hsubs, hkeys, ?_⟩
    intro p_name sec hmem hig hv htr
    have hperm := sortBy_perm Prod.fst items
    have hmem2 : (p_name, JValue.obj sec) ∈ sortBy Prod.fst items :=
      hperm.mem_iff.2 hmem
    have hnd2 : ((sortBy Prod.fst items).map Prod.fst).Nodup :=
      ((hperm.map Prod.fst).nodup_iff).2 hnd
    exact hlook p_name sec hmem2 hnd2 hig hv htr
  · intro parser defn cmd2 h
    obtain ⟨names, cs, hn, hc, hcmd⟩ := argparser_from_actions_spec parser defn cmd2 h
    subst hcmd
    obtain ⟨hkeys, hlook⟩ := actionsLoop_spec defn names cs hc
    refine ⟨rfl, rfl, names, cs, hn, rfl, hkeys, ?_⟩
    intro name hm hnd a_def hl htr
    obtain ⟨a_def2, ac, heq, hap, hlk⟩ := hlook name hm hnd _ hl htr
    have heq2 : a_def2 = a_def := by injection heq.symm
    subst heq2
    exact ⟨ac, hap, hlk⟩
  · intro a_def input hin hall
    rw [actionParser, hin]
    simp only []
    rw [optionsOfInput_spec input hall]
    rfl

/-- Witness for C1 (amended): the structural clause applied to the parser
generated for the concrete interface of the claim. -/
theorem argparser_from_interface_tree_witness :
    (Cmd.mk [] [] (some "api.primary")
        [("scan", Cmd.mk [] [] (some "api.action")
          [("list", Cmd.mk [ArgOption.mk "--target-id" "api.params.target-id"
              (JValue.str "0")] [] none [])])]).opts = [] ∧
    (Cmd.mk [] [] (some "api.primary")
        [("scan", Cmd.mk [] [] (some "api.action")
          [("list", Cmd.mk [ArgOption.mk "--target-id" "api.params.target-id"
              (JValue.str "0")] [] none [])])]).subDest = some "api.primary" :=
  have happ := argparser_from_interface_tree.1 (Cmd.mk [] [] none [])
    [("scan", JValue.obj
      [("functions", JValue.arr [JValue.str "list"]),
       ("list", JValue.obj [("input", JValue.obj
         [("target_id", JValue.obj [("default", JValue.str "0")])])])])]
    (Cmd.mk [] [] (some "api.primary")
      [("scan", Cmd.mk [] [] (some "api.action")
        [("list", Cmd.mk [ArgOption.mk "--target-id" "api.params.target-id"
            (JValue.str "0")] [] none [])])])
    rfl (by decide)
  ⟨happ.1, happ.2.1⟩

end Becmd
